import Mathlib

/-!
Verification development for the trace-reconciliation and forest-layout core
of the C99-VIS repository.

The embedding models two source functions:
  - normalizeData (src/services/geminiService.ts, lines 10-116): the
    Sanitizer, Carry-Forward, and Node-Graph-Repairer passes over a
    SimulationData document, and
  - calculateTreeLayout (src/utils/layout.ts, lines 11-131): the forest
    builder and layout engine (the spec calls it buildForestLayout).

JavaScript data is modelled as follows: a JSON value stored in a variable
mapping is a Value (string, number, boolean, null, or nested array); a JS
object is an association list with unique keys in insertion order, where
assignment to an existing key keeps its position and assignment to a fresh
key appends (JS objects cannot hold duplicate keys; inputs with duplicate
keys are outside the image of JSON.parse). Numbers are modelled as integers:
the depth field and the values the claims touch are integral, and no claim
depends on fractional numerics. Viewport dimensions are rationals.

String literals are bound to named constants once and referenced by name
throughout.
-/

def emptyStr : String := ""

def qMarkLit : String := "?"

def garbageLit : String := "garbage"

def randomLit : String := "random"

def uninitLit : String := "uninitialized"

def normLabel : String := "normalized node"

def nullLit : String := "null"

def SUPER_ROOT_ID : String := "__SUPER_ROOT__"

def printfLit : String := "printf"

def mallocLit : String := "malloc"

/-- Model of String.prototype.startsWith restricted to char lists. -/
def startsWithL : List Char → List Char → Bool
  | _, [] => true
  | [], _ :: _ => false
  | c :: cs, p :: ps => c == p && startsWithL cs ps

/-- Model of String.prototype.includes on char lists: some suffix starts with the pattern. -/
def hasSubL : List Char → List Char → Bool
  | [], p => startsWithL [] p
  | c :: t, p => startsWithL (c :: t) p || hasSubL t p

/-- toLowerCase on one character; the labels and markers this data carries
are ASCII, so only the ASCII range needs mapping. -/
def lowerChar (c : Char) : Char :=
  if c.toNat ≥ 65 ∧ c.toNat ≤ 90 then Char.ofNat (c.toNat + 32) else c

def toLowerL (l : List Char) : List Char := l.map lowerChar

/-- Model of s.toLowerCase().includes(pat) for a lowercase pattern. -/
def hasSubstrLower (s pat : String) : Bool := hasSubL (toLowerL s.toList) pat.toList

/-- A variable value as delivered by JSON: scalar or nested array. -/
inductive Value where
  | vStr : String → Value
  | vNum : Int → Value
  | vBool : Bool → Value
  | vNull : Value
  | vArr : List Value → Value

/-- Array.isArray. -/
def isArr : Value → Bool
  | .vArr _ => true
  | _ => false

/-- JS object lookup (obj[k], None when the property is undefined). -/
def alookup {α : Type} : List (String × α) → String → Option α
  | [], _ => none
  | (k, v) :: rest, key => if k = key then some v else alookup rest key

/-- JS object assignment obj[k] = v: replace in place if present, append if fresh. -/
def aset {α : Type} : List (String × α) → String → α → List (String × α)
  | [], key, v => [(key, v)]
  | (k, w) :: rest, key, v =>
    if k = key then (k, v) :: rest else (k, w) :: aset rest key v

abbrev VarMap := List (String × Value)

/-- Number(s) for a string depth value: empty/whitespace is 0, optional sign
followed by digits parses, anything else is NaN (None). Fractional forms do
not occur for stack depths. -/
def parseDigitsAux : List Char → Nat → Option Nat
  | [], acc => some acc
  | c :: cs, acc =>
    if c.isDigit then parseDigitsAux cs (acc * 10 + (c.toNat - 48)) else none

def parseDigits : List Char → Option Nat
  | [] => none
  | l => parseDigitsAux l 0

def isSpaceC (c : Char) : Bool := c == ' ' || c == '\t' || c == '\n' || c == '\r'

def trimL (l : List Char) : List Char :=
  ((l.dropWhile isSpaceC).reverse.dropWhile isSpaceC).reverse

def jsStrToNumber (s : String) : Option Int :=
  match trimL s.toList with
  | [] => some 0
  | '-' :: rest => (parseDigits rest).map (fun n => -(n : Int))
  | '+' :: rest => (parseDigits rest).map (fun n => (n : Int))
  | l => (parseDigits l).map (fun n => (n : Int))

/-- JS loose equality (==) restricted to the number-or-string depth field
(types.ts declares h as number | string); a string compares equal to a
number when Number(string) yields that number. -/
def looseEqH : Value → Value → Bool
  | .vNum a, .vNum b => a == b
  | .vStr a, .vStr b => a == b
  | .vNum a, .vStr b =>
    match jsStrToNumber b with
    | some n => n == a
    | none => false
  | .vStr a, .vNum b =>
    match jsStrToNumber a with
    | some n => n == b
    | none => false
  | _, _ => false

/-- toLowerCase().includes of one of the three noise markers
(geminiService.ts lines 29-34). -/
def badStr (s : String) : Bool :=
  hasSubstrLower s garbageLit || hasSubstrLower s randomLit ||
    hasSubstrLower s uninitLit

mutual
/-- One element of cleanArray's map callback (geminiService.ts lines 25-38). -/
def cleanItem : Value → Value
  | Value.vArr a => Value.vArr (cleanArray a)
  | Value.vStr s => if badStr s then Value.vStr qMarkLit else Value.vStr s
  | v => v

/-- cleanArray (geminiService.ts lines 24-39): recursively rewrite noise
strings inside a (possibly nested) array to the "?" marker. -/
def cleanArray : List Value → List Value
  | [] => []
  | x :: xs => cleanItem x :: cleanArray xs
end

/-- Call-stack frame (types.ts StepState.stack element). -/
structure Frame where
  func : String
  args : VarMap
  line : Option Int

/-- StepState (types.ts lines 1-6). The snapshot path field p is opaque here. -/
structure StepState where
  h : Value
  p : Value
  vars : Option VarMap
  stack : List Frame

/-- SimulationStep (types.ts lines 8-13). -/
structure SimulationStep where
  L : Int
  s : Option StepState
  n : Option String
  out : Option String

/-- Node classification tag (types.ts line 20). -/
inductive NType where
  | standard
  | solution
  | dead
deriving DecidableEq

/-- TreeNode (types.ts lines 15-24); computed layout fields are not part of
the reconciliation data. -/
structure TreeNode where
  l : String
  p : Option String
  level : Int
  children : List String
  type : Option NType
deriving DecidableEq

abbrev TreeMap := List (String × TreeNode)

/-- Complexity metadata (types.ts lines 27-31), opaque to the core. -/
structure Complexity where
  time : String
  space : String
  explanation : Option String
deriving DecidableEq

/-- SimulationData (types.ts lines 26-36). -/
structure SimulationData where
  complexity : Complexity
  pointers : Option (List String)
  isComplete : Option Bool
  steps : List SimulationStep
  tree : TreeMap

/-- Garbage cleanup over a variable mapping (geminiService.ts lines 41-46):
only array-valued entries are passed through cleanArray. -/
def cleanVars (m : VarMap) : VarMap :=
  m.map fun kv =>
    match kv.2 with
    | Value.vArr a => (kv.1, Value.vArr (cleanArray a))
    | _ => kv

/-- Record arrays into the persistent table (geminiService.ts lines 51-55). -/
def recordArrays (m : VarMap) (pa : VarMap) : VarMap :=
  m.foldl (fun pa kv => if isArr kv.2 then aset pa kv.1 kv.2 else pa) pa

/-- Backfill missing arrays from the persistent table
(geminiService.ts lines 57-61). -/
def backfillArrays (pa : VarMap) (m : VarMap) : VarMap :=
  pa.foldl
    (fun m kv =>
      match alookup m kv.1 with
      | none => aset m kv.1 kv.2
      | some _ => m)
    m

/-- Carry missing scalars over from the previous step
(geminiService.ts lines 72-78). -/
def inheritScalars (pv : VarMap) (m : VarMap) : VarMap :=
  pv.foldl
    (fun m kv =>
      if !isArr kv.2 && (alookup m kv.1).isNone then aset m kv.1 kv.2
      else m)
    m

/-- The parent candidate for a synthesized node (geminiService.ts lines
90-91): the previous step node reference when it is truthy (non-null and
non-empty). -/
def parentCand (prevN : Option String) : Option String :=
  match prevN with
  | some p => if p = emptyStr then none else some p
  | none => none

/-- Level for a synthesized node (geminiService.ts lines 96-99), computed on
the tree before the insertion. -/
def levelForParent (tree : TreeMap) (pc : Option String) : Int :=
  match pc with
  | some pn =>
    match alookup tree pn with
    | some nd => nd.level + 1
    | none => 0
  | none => 0

/-- Idempotent child registration (geminiService.ts lines 105-111), run on
the tree after the insertion. -/
def appendChild (tree : TreeMap) (pc : Option String) (nid : String) : TreeMap :=
  match pc with
  | some pn =>
    match alookup tree pn with
    | some nd =>
      if nid ∈ nd.children then tree
      else aset tree pn { nd with children := nd.children ++ [nid] }
    | none => tree
  | none => tree

/-- Tree node normalization for one step (geminiService.ts lines 85-112). A
falsy (None or empty) node reference is skipped; a reference already in the
map is left alone; otherwise a placeholder node is synthesized. -/
def normalizeTreeStep (tree : TreeMap) (prevN : Option String) (n : Option String) :
    TreeMap :=
  match n with
  | none => tree
  | some nid =>
    if nid = emptyStr then tree
    else
      match alookup tree nid with
      | some _ => tree
      | none =>
        let pc := parentCand prevN
        let lvl := levelForParent tree pc
        let tree1 :=
          aset tree nid
            { l := normLabel, p := pc, level := lvl, children := [],
              type := some NType.standard }
        appendChild tree1 pc nid

/-- State threaded through the normalizeData loop: the previous (already
processed, mutated in place) step, the persistentArrays table, and the tree. -/
structure PassSt where
  prev : Option SimulationStep
  pa : VarMap
  tree : TreeMap

/-- Garbage cleanup stage of one loop iteration (sections 0 of
normalizeData): the vars object defaulted to empty, then cleaned. -/
def cleanedVars (ss : StepState) : VarMap := cleanVars (ss.vars.getD [])

/-- persistentArrays after recording this step (section 1, first half). -/
def paAfter (st : PassSt) (ss : StepState) : VarMap :=
  recordArrays (cleanedVars ss) st.pa

/-- The mapping after array backfill (section 1, second half). -/
def varsAfterBackfill (st : PassSt) (ss : StepState) : VarMap :=
  backfillArrays (paAfter st ss) (cleanedVars ss)

/-- The mapping after the depth-gated scalar carry-forward (section 2). -/
def varsAfterInherit (st : PassSt) (ss : StepState) : VarMap :=
  match st.prev with
  | some pstep =>
    match pstep.s with
    | some pss =>
      if looseEqH pss.h ss.h then
        inheritScalars (pss.vars.getD []) (varsAfterBackfill st ss)
      else varsAfterBackfill st ss
    | none => varsAfterBackfill st ss
  | none => varsAfterBackfill st ss

/-- One iteration of the normalizeData loop (geminiService.ts lines 15-113):
a step without a snapshot is skipped entirely; otherwise its vars run
through cleanup, array persistence and scalar carry-forward, and its node
reference through tree normalization. -/
def processStep (st : PassSt) (step : SimulationStep) : SimulationStep × PassSt :=
  match step.s with
  | none => (step, { st with prev := some step })
  | some ss =>
    let outStep :=
      { step with s := some { ss with vars := some (varsAfterInherit st ss) } }
    (outStep,
      { prev := some outStep, pa := paAfter st ss,
        tree := normalizeTreeStep st.tree (st.prev.bind SimulationStep.n) step.n })

/-- The normalizeData loop over the whole step sequence. -/
def runPass : List SimulationStep → PassSt → List SimulationStep × PassSt
  | [], st => ([], st)
  | x :: xs, st =>
    let r := processStep st x
    let rest := runPass xs r.2
    (r.1 :: rest.1, rest.2)

def initSt (tree : TreeMap) : PassSt := { prev := none, pa := [], tree := tree }

/-- normalizeData (geminiService.ts lines 10-116). -/
def normalizeData (data : SimulationData) : SimulationData :=
  let r := runPass data.steps (initSt data.tree)
  { data with steps := r.1, tree := r.2.tree }

/-!
Model of calculateTreeLayout (src/utils/layout.ts, lines 11-131), the
forest builder and layout engine. The d3 library pieces it relies on are
embedded as follows, after the d3-hierarchy sources:
  - d3.hierarchy builds the node tree from each node object's children
    list; here the children of a real node pid are the map keys whose
    normalized parent is pid and that are not roots (layout.ts lines
    74-87), and the synthetic super-root's children are the keys attached
    under the literal super-root id followed by the detected roots
    (layout.ts lines 89-92); the hierarchy is materialized breadth-first,
    level by level, with a fuel bound of one more than the key count
    (reachable parent-child chains are duplicate-free, so the bound is
    never hit on real object graphs);
  - descendants() enumerates every hierarchy node with its depth; height
    is the number of levels below the root;
  - d3.tree().size([w, h]) assigns each node the vertical coordinate
    depth * (h / height) (d3-hierarchy tree.js sizing step). Horizontal
    coordinates and the width computation (leaf count and NODE_SIZE_X)
    are omitted: no claim mentions them, and they influence nothing that
    is kept.
The super-root filter and the Math.max(0, y - LEVEL_HEIGHT) shift are
taken literally from layout.ts lines 112-125.
-/

def keysOf {α : Type} (t : List (String × α)) : List String := t.map Prod.fst

/-- The library-call noise test (layout.ts lines 31-33). -/
def isLibraryFunc (nd : TreeNode) : Bool :=
  hasSubstrLower nd.l printfLit || hasSubstrLower nd.l mallocLit

/-- Parent id normalization (layout.ts line 77): the literal string "null"
counts as no parent. -/
def normParent (p : Option String) : Option String :=
  match p with
  | some q => if q = nullLit then none else some q
  | none => none

/-- The root test on one node (layout.ts lines 27-40): parent null, the
literal "null", or absent from the key set, and not a library-call noise
label. -/
def isRootEntry (keys : List String) (nd : TreeNode) : Bool :=
  (match nd.p with
   | none => true
   | some q => q == nullLit || !keys.contains q) && !isLibraryFunc nd

/-- Candidate roots in key order (layout.ts lines 24-40). -/
def rootsOf (tree : TreeMap) : List String :=
  (keysOf tree).filter fun id =>
    match alookup tree id with
    | some nd => isRootEntry (keysOf tree) nd
    | none => false

/-- Roots after the zero-roots fallback to the first key
(layout.ts lines 43-45). -/
def forestRoots (tree : TreeMap) : List String :=
  let r := rootsOf tree
  if r.isEmpty then [(keysOf tree).headD emptyStr] else r

/-- The children pushed onto the hierarchy object of a real node pid
(layout.ts lines 74-87): keys that are not roots whose normalized parent is
the truthy id pid. -/
def childrenIds (tree : TreeMap) (roots : List String) (pid : String) : List String :=
  (keysOf tree).filter fun id =>
    !roots.contains id &&
      (match alookup tree id with
       | some nd =>
         match normParent nd.p with
         | some ps => !(ps == emptyStr) && ps == pid
         | none => false
       | none => false)

/-- The children of the synthetic super-root object: non-root keys whose
normalized parent is the super-root sentinel (only possible while the
sentinel is not itself a key, since a real key would overwrite the map
entry, layout.ts lines 64-71), followed by the detected roots
(layout.ts lines 89-92). -/
def superKids (tree : TreeMap) (roots : List String) : List String :=
  (if (keysOf tree).contains SUPER_ROOT_ID then []
   else
     (keysOf tree).filter fun id =>
       !roots.contains id &&
         (match alookup tree id with
          | some nd =>
            match normParent nd.p with
            | some ps => ps == SUPER_ROOT_ID
            | none => false
          | none => false))
    ++ roots

def flatMapL {α β : Type} (f : α → List β) : List α → List β
  | [] => []
  | x :: xs => f x ++ flatMapL f xs

/-- Breadth-first materialization of the hierarchy below the super-root,
one list of ids per depth level. -/
def bfsLevels (tree : TreeMap) (roots : List String) :
    Nat → List String → List (List String)
  | 0, _ => []
  | fuel + 1, frontier =>
    if frontier.isEmpty then []
    else frontier :: bfsLevels tree roots fuel (flatMapL (childrenIds tree roots) frontier)

/-- All hierarchy levels below the super-root (depth 1 first). -/
def hierLevels (tree : TreeMap) : List (List String) :=
  let roots := forestRoots tree
  bfsLevels tree roots ((keysOf tree).length + 1) (superKids tree roots)

/-- A positioned node of the returned layout: id, hierarchy depth, and the
vertical coordinate after the shift. -/
structure LNode where
  id : String
  depth : Nat
  y : ℚ
deriving DecidableEq

/-- A returned parent-child link, by endpoint ids (the source stores the
node objects themselves; the claims only inspect the endpoint ids). -/
structure LLink where
  src : String
  tgt : String
deriving DecidableEq

structure LayoutResult where
  nodes : List LNode
  links : List LLink
deriving DecidableEq

def LEVEL_HEIGHT : ℚ := 130

/-- Ids of each level paired with their depth, starting at the given depth. -/
def levelEntries : List (List String) → Nat → List (String × Nat)
  | [], _ => []
  | lvl :: rest, d => lvl.map (fun id => (id, d)) ++ levelEntries rest (d + 1)

/-- All parent-child edges of the materialized hierarchy between real
nodes, as produced by links(). -/
def levelEdges (tree : TreeMap) (roots : List String) : List (List String) → List LLink
  | [] => []
  | lvl :: rest =>
    flatMapL (fun pid => (childrenIds tree roots pid).map fun c => LLink.mk pid c) lvl
      ++ levelEdges tree roots rest

/-- calculateTreeLayout (layout.ts lines 11-131): empty map short-circuit,
root detection with fallback, hierarchy assembly under the synthetic
super-root, vertical sizing (height is the larger of the viewport height
and depth times the level height), the super-root filters on nodes and
links, and the clamped upward shift by one level height. -/
def calculateTreeLayout (tree : TreeMap) (vw vh : ℚ) : LayoutResult :=
  if (keysOf tree).isEmpty then { nodes := [], links := [] }
  else
    let roots := forestRoots tree
    let levels := hierLevels tree
    let hDepth : Nat := levels.length
    let treeHeight : ℚ := max vh ((hDepth : ℚ) * LEVEL_HEIGHT)
    let ky : ℚ := treeHeight / (if hDepth = 0 then 1 else (hDepth : ℚ))
    let nodes :=
      ((levelEntries levels 1).filter fun e => !(e.1 == SUPER_ROOT_ID)).map fun e =>
        { id := e.1, depth := e.2, y := max 0 ((e.2 : ℚ) * ky - LEVEL_HEIGHT) }
    let links :=
      (((superKids tree roots).map fun c => LLink.mk SUPER_ROOT_ID c)
            ++ levelEdges tree roots levels).filter
        fun l => !(l.src == SUPER_ROOT_ID)
    { nodes := nodes, links := links }

/-! Basic lemmas about the JS-object operations. -/

theorem alookup_aset_self {α : Type} (m : List (String × α)) (k : String) (v : α) :
    alookup (aset m k v) k = some v := by
  induction m with
  | nil => simp [aset, alookup]
  | cons e rest ih =>
    obtain ⟨k', w⟩ := e
    by_cases h : k' = k
    · subst h; simp [aset, alookup]
    · simp [aset, alookup, h, ih]

theorem alookup_aset_ne {α : Type} (m : List (String × α)) (k k' : String) (v : α)
    (h : k' ≠ k) : alookup (aset m k v) k' = alookup m k' := by
  induction m with
  | nil =>
    simp only [aset, alookup]
    rw [if_neg (Ne.symm h)]
  | cons e rest ih =>
    obtain ⟨k0, w⟩ := e
    by_cases h0 : k0 = k
    · subst h0
      simp only [aset, if_pos rfl, alookup]
      rw [if_neg (Ne.symm h), if_neg (Ne.symm h)]
    · simp only [aset, if_neg h0, alookup]
      by_cases h1 : k0 = k'
      · rw [if_pos h1, if_pos h1]
      · rw [if_neg h1, if_neg h1, ih]

theorem alookup_isSome_aset {α : Type} (m : List (String × α)) (k k' : String) (v : α)
    (h : (alookup m k').isSome) : (alookup (aset m k v) k').isSome := by
  by_cases hk : k' = k
  · subst hk; simp [alookup_aset_self]
  · rwa [alookup_aset_ne m k k' v hk]

theorem aset_eq_append {α : Type} (m : List (String × α)) (k : String) (v : α)
    (h : alookup m k = none) : aset m k v = m ++ [(k, v)] := by
  induction m with
  | nil => simp [aset]
  | cons e rest ih =>
    obtain ⟨k0, w⟩ := e
    simp only [alookup] at h
    by_cases h0 : k0 = k
    · simp [h0] at h
    · simp only [if_neg h0] at h
      simp [aset, h0, ih h]

theorem mem_aset {α : Type} (m : List (String × α)) (k : String) (v : α) :
    ∀ e ∈ aset m k v, e ∈ m ∨ e = (k, v) := by
  induction m with
  | nil =>
    intro e he
    simp only [aset, List.mem_singleton] at he
    exact Or.inr he
  | cons e0 rest ih =>
    obtain ⟨k0, w⟩ := e0
    intro e he
    by_cases h0 : k0 = k
    · simp only [aset, if_pos h0] at he
      rcases List.mem_cons.mp he with h | h
      · exact Or.inr (by rw [h, h0])
      · exact Or.inl (List.mem_cons_of_mem _ h)
    · simp only [aset, if_neg h0] at he
      rcases List.mem_cons.mp he with h | h
      · exact Or.inl (by rw [h]; exact List.mem_cons_self _ _)
      · rcases ih e h with h1 | h1
        · exact Or.inl (List.mem_cons_of_mem _ h1)
        · exact Or.inr h1

theorem alookup_isSome_of_mem {α : Type} (m : List (String × α)) (k : String) (v : α)
    (h : (k, v) ∈ m) : (alookup m k).isSome := by
  induction m with
  | nil => simp at h
  | cons e rest ih =>
    obtain ⟨k0, w⟩ := e
    by_cases h0 : k0 = k
    · simp [alookup, h0]
    · simp only [alookup, if_neg h0]
      apply ih
      rcases List.mem_cons.mp h with heq | hmem
      · exact absurd (congrArg Prod.fst heq).symm h0
      · exact hmem

theorem mem_of_alookup_eq_some {α : Type} (m : List (String × α)) (k : String) (v : α)
    (h : alookup m k = some v) : (k, v) ∈ m := by
  induction m with
  | nil => simp [alookup] at h
  | cons e rest ih =>
    obtain ⟨k0, w⟩ := e
    by_cases h0 : k0 = k
    · subst h0
      simp [alookup] at h
      subst h
      exact List.mem_cons_self _ _
    · simp only [alookup, if_neg h0] at h
      exact List.mem_cons_of_mem _ (ih h)

theorem alookup_none_forall {α : Type} (m : List (String × α)) (k : String)
    (h : alookup m k = none) : ∀ e ∈ m, e.1 ≠ k := by
  induction m with
  | nil => simp
  | cons e0 rest ih =>
    obtain ⟨k0, w⟩ := e0
    simp only [alookup] at h
    by_cases h0 : k0 = k
    · simp [h0] at h
    · simp only [if_neg h0] at h
      intro e he
      rcases List.mem_cons.mp he with he | he
      · simp [he, h0]
      · exact ih h e he

theorem alookup_eq_none_of_forall {α : Type} (m : List (String × α)) (k : String)
    (h : ∀ e ∈ m, e.1 ≠ k) : alookup m k = none := by
  induction m with
  | nil => rfl
  | cons e0 rest ih =>
    obtain ⟨k0, w⟩ := e0
    have h0 : k0 ≠ k := h (k0, w) (List.mem_cons_self _ _)
    simp only [alookup, if_neg h0]
    exact ih fun e he => h e (List.mem_cons_of_mem _ he)

theorem alookup_append {α : Type} (m1 m2 : List (String × α)) (k : String) :
    alookup (m1 ++ m2) k =
      match alookup m1 k with
      | some v => some v
      | none => alookup m2 k := by
  induction m1 with
  | nil => simp [alookup]
  | cons e rest ih =>
    obtain ⟨k0, w⟩ := e
    by_cases h0 : k0 = k
    · simp [alookup, h0]
    · simp [alookup, h0, ih]

theorem keysOf_aset {α : Type} (m : List (String × α)) (k : String) (v : α) :
    keysOf (aset m k v) = if (alookup m k).isSome then keysOf m else keysOf m ++ [k] := by
  induction m with
  | nil => simp [aset, keysOf, alookup]
  | cons e rest ih =>
    obtain ⟨k0, w⟩ := e
    by_cases h0 : k0 = k
    · subst h0; simp [aset, keysOf, alookup]
    · simp only [aset, if_neg h0, keysOf, List.map_cons, alookup]
      simp only [keysOf] at ih
      by_cases hs : (alookup rest k).isSome
      · simp [h0, hs, ih]
      · simp [h0, hs, ih]

theorem nodup_keys_aset {α : Type} (m : List (String × α)) (k : String) (v : α)
    (h : (keysOf m).Nodup) : (keysOf (aset m k v)).Nodup := by
  rw [keysOf_aset]
  by_cases hs : (alookup m k).isSome
  · simpa [hs]
  · have hk : k ∉ keysOf m := by
      intro hmem
      obtain ⟨e, he, hek⟩ := List.mem_map.mp hmem
      exact (alookup_none_forall m k (Option.not_isSome_iff_eq_none.mp hs) e he) hek
    simp [hs, List.nodup_append, h, hk]

/-! Lemmas about the Sanitizer. -/

theorem badStr_qMark : badStr qMarkLit = false := rfl

mutual
theorem cleanItem_idem : ∀ v : Value, cleanItem (cleanItem v) = cleanItem v
  | Value.vStr s => by
    simp only [cleanItem]
    by_cases h : badStr s
    · simp [h, cleanItem, badStr_qMark]
    · simp [h, cleanItem]
  | Value.vNum n => rfl
  | Value.vBool b => rfl
  | Value.vNull => rfl
  | Value.vArr a => by simp [cleanItem, cleanArray_idem a]

theorem cleanArray_idem : ∀ l : List Value, cleanArray (cleanArray l) = cleanArray l
  | [] => rfl
  | x :: xs => by simp [cleanArray, cleanItem_idem x, cleanArray_idem xs]
end

/-- Lookup through the garbage-cleanup map: array values come back cleaned,
everything else is untouched. -/
theorem alookup_cleanVars (m : VarMap) (k : String) :
    alookup (cleanVars m) k =
      match alookup m k with
      | some (Value.vArr a) => some (Value.vArr (cleanArray a))
      | o => o := by
  induction m with
  | nil => simp [cleanVars, alookup]
  | cons e rest ih =>
    obtain ⟨k0, w⟩ := e
    by_cases h0 : k0 = k
    · subst h0
      cases w <;> simp [cleanVars, alookup]
    · have hskip : alookup (cleanVars ((k0, w) :: rest)) k = alookup (cleanVars rest) k := by
        cases w <;> simp [cleanVars, alookup, h0]
      rw [hskip, ih]
      simp [alookup, h0]

theorem mem_cleanVars (m : VarMap) :
    ∀ e ∈ cleanVars m, ∃ e0 ∈ m, e.1 = e0.1 ∧
      e.2 = (match e0.2 with
             | Value.vArr a => Value.vArr (cleanArray a)
             | v => v) := by
  intro e he
  obtain ⟨e0, he0, hmap⟩ := List.mem_map.mp he
  subst hmap
  obtain ⟨k0, w⟩ := e0
  cases w <;> exact ⟨_, he0, rfl, rfl⟩

theorem cleanVars_eq_self (m : VarMap)
    (h : ∀ e ∈ m, ∀ a, e.2 = Value.vArr a → cleanArray a = a) : cleanVars m = m := by
  induction m with
  | nil => rfl
  | cons e rest ih =>
    obtain ⟨k0, w⟩ := e
    have hrest : cleanVars rest = rest :=
      ih fun e he a ha => h e (List.mem_cons_of_mem _ he) a ha
    cases hw : w with
    | vArr a =>
      have := h (k0, w) (List.mem_cons_self _ _) a (by simp [hw])
      simp [cleanVars, hw, this, hrest]
      simpa [cleanVars] using hrest
    | vStr s => simp [cleanVars, hrest]; simpa [cleanVars] using hrest
    | vNum n => simp [cleanVars, hrest]; simpa [cleanVars] using hrest
    | vBool b => simp [cleanVars, hrest]; simpa [cleanVars] using hrest
    | vNull => simp [cleanVars, hrest]; simpa [cleanVars] using hrest

mutual
/-- The Sanitizer contract, written from the spec (section 4.1): every
string element case-insensitively containing one of the noise markers is
replaced by the "?" marker, every other element is preserved, and arrays
are mapped elementwise, recursively, keeping their shape. -/
inductive SanSpec : Value → Value → Prop where
  | strBad : ∀ s, badStr s = true → SanSpec (Value.vStr s) (Value.vStr qMarkLit)
  | strOk : ∀ s, badStr s = false → SanSpec (Value.vStr s) (Value.vStr s)
  | num : ∀ n, SanSpec (Value.vNum n) (Value.vNum n)
  | bool : ∀ b, SanSpec (Value.vBool b) (Value.vBool b)
  | null : SanSpec Value.vNull Value.vNull
  | arr : ∀ xs ys, SanList xs ys → SanSpec (Value.vArr xs) (Value.vArr ys)

/-- Elementwise SanSpec on arrays: forces equal shape. -/
inductive SanList : List Value → List Value → Prop where
  | nil : SanList [] []
  | cons : ∀ x y xs ys, SanSpec x y → SanList xs ys → SanList (x :: xs) (y :: ys)
end

mutual
theorem sanSpec_cleanItem : ∀ v : Value, SanSpec v (cleanItem v)
  | Value.vStr s => by
    by_cases h : badStr s
    · simpa [cleanItem, h] using SanSpec.strBad s h
    · simpa [cleanItem, h] using SanSpec.strOk s (by simpa using h)
  | Value.vNum n => SanSpec.num n
  | Value.vBool b => SanSpec.bool b
  | Value.vNull => SanSpec.null
  | Value.vArr a => SanSpec.arr a (cleanArray a) (sanList_cleanArray a)

theorem sanList_cleanArray : ∀ l : List Value, SanList l (cleanArray l)
  | [] => SanList.nil
  | x :: xs =>
    SanList.cons x (cleanItem x) xs (cleanArray xs) (sanSpec_cleanItem x)
      (sanList_cleanArray xs)
end

def nLit : String := "n"

/-- C7: for every (possibly nested) array value, the Sanitizer returns an
equal-shape array related elementwise to its input by the spec replacement
rule: a string element that case-insensitively contains one of the noise
markers becomes the "?" marker, every other element (including nested
sub-arrays, recursively) is preserved; and non-array variable values are
untouched by the cleanup pass over a variable mapping. -/
theorem c7_sanitizer_contract :
    (∀ xs : List Value, SanList xs (cleanArray xs)) ∧
    (∀ (m : VarMap) (k : String) (v : Value), isArr v = false →
      alookup m k = some v → alookup (cleanVars m) k = some v) := by
  constructor
  · exact sanList_cleanArray
  · intro m k v hv h
    rw [alookup_cleanVars, h]
    cases v <;> simp_all [isArr]

/-- Witness for C7 at a concrete mapping holding a scalar. -/
theorem c7_sanitizer_contract_witness :
    alookup (cleanVars [(nLit, Value.vNum 5)]) nLit = some (Value.vNum 5) :=
  c7_sanitizer_contract.2 [(nLit, Value.vNum 5)] nLit (Value.vNum 5) rfl rfl

/-! Frame lemmas: which fields the pass can touch. -/

/-- Everything of a step except the vars of its snapshot. -/
def sameFrame (a b : SimulationStep) : Prop :=
  a.L = b.L ∧ a.n = b.n ∧ a.out = b.out ∧
    match a.s, b.s with
    | none, none => True
    | some sa, some sb => sa.h = sb.h ∧ sa.p = sb.p ∧ sa.stack = sb.stack
    | _, _ => False

theorem processStep_sameFrame (st : PassSt) (raw : SimulationStep) :
    sameFrame (processStep st raw).1 raw := by
  cases hs : raw.s with
  | none => simp [processStep, sameFrame, hs]
  | some ss => simp [processStep, sameFrame, hs]

theorem runPass_frames : ∀ (raws : List SimulationStep) (st : PassSt),
    List.Forall₂ sameFrame (runPass raws st).1 raws
  | [], _ => List.Forall₂.nil
  | x :: xs, st => by
    simp only [runPass]
    exact List.Forall₂.cons (processStep_sameFrame st x)
      (runPass_frames xs (processStep st x).2)

/-- C10: reconcile (normalizeData) only rewrites per-step variable mappings
and the node map; the document complexity, pointers and isComplete fields
and, for every step, the line number, node reference, output fragment,
snapshot presence, stack depth, snapshot path and call stack come back
exactly as they arrived. -/
theorem c10_frame_effect (data : SimulationData) :
    (normalizeData data).complexity = data.complexity ∧
    (normalizeData data).pointers = data.pointers ∧
    (normalizeData data).isComplete = data.isComplete ∧
    List.Forall₂ sameFrame (normalizeData data).steps data.steps := by
  refine ⟨rfl, rfl, rfl, ?_⟩
  exact runPass_frames data.steps (initSt data.tree)

/-! Node-Graph Repairer lemmas. -/

theorem appendChild_isSome_mono (tree : TreeMap) (pc : Option String) (nid k : String)
    (h : (alookup tree k).isSome) : (alookup (appendChild tree pc nid) k).isSome := by
  unfold appendChild
  cases pc with
  | none => exact h
  | some pn =>
    cases hl : alookup tree pn with
    | none => simp only [hl]; exact h
    | some nd =>
      simp only [hl]
      by_cases hmem : nid ∈ nd.children
      · simpa [hmem] using h
      · simp only [if_neg hmem]
        exact alookup_isSome_aset _ pn k _ h

theorem normalizeTreeStep_mono (tree : TreeMap) (pn n : Option String) (k : String)
    (h : (alookup tree k).isSome) :
    (alookup (normalizeTreeStep tree pn n) k).isSome := by
  cases n with
  | none => exact h
  | some nid =>
    simp only [normalizeTreeStep]
    by_cases hne : nid = emptyStr
    · simpa [hne] using h
    · rw [if_neg hne]
      cases hl : alookup tree nid with
      | some nd => simp only [hl]; exact h
      | none =>
        simp only [hl]
        exact appendChild_isSome_mono _ _ _ _ (alookup_isSome_aset tree nid k _ h)

theorem normalizeTreeStep_self (tree : TreeMap) (pn : Option String) (nid : String)
    (hne : nid ≠ emptyStr) :
    (alookup (normalizeTreeStep tree pn (some nid)) nid).isSome := by
  simp only [normalizeTreeStep, if_neg hne]
  cases hl : alookup tree nid with
  | some nd => simp [hl]
  | none =>
    simp only [hl]
    exact appendChild_isSome_mono _ _ _ _ (by simp [alookup_aset_self])

theorem processStep_tree_mono (st : PassSt) (raw : SimulationStep) (k : String)
    (h : (alookup st.tree k).isSome) :
    (alookup (processStep st raw).2.tree k).isSome := by
  cases hs : raw.s with
  | none => simpa [processStep, hs] using h
  | some ss =>
    simpa [processStep, hs] using
      normalizeTreeStep_mono st.tree (st.prev.bind SimulationStep.n) raw.n k h

theorem processStep_tree_self (st : PassSt) (raw : SimulationStep) (ss : StepState)
    (nid : String) (hs : raw.s = some ss) (hn : raw.n = some nid)
    (hne : nid ≠ emptyStr) :
    (alookup (processStep st raw).2.tree nid).isSome := by
  simpa [processStep, hs, hn] using
    normalizeTreeStep_self st.tree (st.prev.bind SimulationStep.n) nid hne

theorem runPass_tree_mono : ∀ (raws : List SimulationStep) (st : PassSt) (k : String),
    (alookup st.tree k).isSome → (alookup (runPass raws st).2.tree k).isSome
  | [], _, _, h => h
  | x :: xs, st, k, h => by
    simp only [runPass]
    exact runPass_tree_mono xs (processStep st x).2 k (processStep_tree_mono st x k h)

theorem runPass_resolves : ∀ (raws : List SimulationStep) (st : PassSt),
    ∀ out ∈ (runPass raws st).1, ∀ ss nid, out.s = some ss → out.n = some nid →
      nid ≠ emptyStr → (alookup (runPass raws st).2.tree nid).isSome := by
  intro raws
  induction raws with
  | nil => intro st out hmem; simp [runPass] at hmem
  | cons x xs ih =>
    intro st out hmem ss nid hs hn hne
    simp only [runPass, List.mem_cons] at hmem
    rcases hmem with hout | hmem
    · subst hout
      cases hxs : x.s with
      | none =>
        rw [processStep] at hs
        simp [hxs] at hs
      | some ss0 =>
        have hxn : x.n = some nid := by
          rw [processStep] at hn
          simpa [hxs] using hn
        exact runPass_tree_mono xs (processStep st x).2 nid
          (processStep_tree_self st x ss0 nid hxs hxn hne)
    · exact ih (processStep st x).2 out hmem ss nid hs hn hne

/-- C1 amended: after reconcile (normalizeData), every step whose snapshot
is present and whose node reference is non-null and non-empty resolves in
the node map. (The claim as stated fails for steps without a snapshot,
which the loop skips before the Repairer section, and for the empty-string
reference, which is falsy in the JS guard; see the counterexample.) -/
theorem c1_repairer_resolves_refs (data : SimulationData) :
    ∀ step ∈ (normalizeData data).steps, ∀ ss nid, step.s = some ss →
      step.n = some nid → nid ≠ emptyStr →
      (alookup (normalizeData data).tree nid).isSome := by
  intro step hmem ss nid hs hn hne
  exact runPass_resolves data.steps (initSt data.tree) step hmem ss nid hs hn hne

/-! Concrete documents used by witnesses and counterexamples. -/

def aLit : String := "a"

def bLit : String := "b"

def n2Lit : String := "n2"

def n5Lit : String := "n5"

def naLit : String := "na"

def emptyComplexity : Complexity := { time := naLit, space := naLit, explanation := none }

def mkData (steps : List SimulationStep) (tree : TreeMap) : SimulationData :=
  { complexity := emptyComplexity, pointers := none, isComplete := none,
    steps := steps, tree := tree }

def plainState (h : Int) (vars : VarMap) : StepState :=
  { h := Value.vNum h, p := Value.vNull, vars := some vars, stack := [] }

/-- One step with a snapshot and a node reference to n5, over an empty map. -/
def exW1 : SimulationData :=
  mkData [{ L := 1, s := some (plainState 0 []), n := some n5Lit, out := none }] []

/-- Witness for C1: the synthesized entry for n5 resolves after the pass. -/
theorem c1_repairer_resolves_refs_witness :
    (alookup (normalizeData exW1).tree n5Lit).isSome :=
  c1_repairer_resolves_refs exW1
    { L := 1, s := some { h := Value.vNum 0, p := Value.vNull, vars := some [], stack := [] },
      n := some n5Lit, out := none }
    (List.mem_cons_self _ _) _ n5Lit rfl rfl (by decide)

/-- A document whose first step has no snapshot but a node reference, and
whose second step references the empty string. -/
def exC1bad : SimulationData :=
  mkData
    [{ L := 1, s := none, n := some n5Lit, out := none },
     { L := 2, s := some (plainState 0 []), n := some emptyStr, out := none }] []

/-- Counterexample to C1 as stated: both steps carry non-null node
references, yet the reconciled node map is empty, so neither reference
resolves. The loop skips a step without a snapshot before the Repairer
section runs, and the empty-string reference is falsy in the JS truthiness
guard. -/
theorem c1_dangling_counterexample :
    (normalizeData exC1bad).tree = [] ∧
    (normalizeData exC1bad).steps.map SimulationStep.n = [some n5Lit, some emptyStr] :=
  ⟨rfl, rfl⟩

/-- C2 amended: when step i references an id absent from the map, the
Repairer synthesizes a node whose parent field is the node reference
carried by step i-1 whenever one exists and is truthy, regardless of
whether that reference is itself present in the map (the claim as stated
requires null in that case; see the counterexample); the level is the
resolved parent level plus one when the parent is present in the
pre-insertion map and 0 otherwise; classification standard; the new node
starts with no children, except when the previous reference equals the new
id itself (a skipped predecessor carrying the same dangling reference):
then the node comes out self-parented at level 0 with itself as its only
child, because the children append runs on the post-insertion map and
finds the just-created node. When the parent resolves, the id is appended
to the parent's children only if not already present, and a second run of
the repair is the identity, so the children list holds the id exactly
once. -/
theorem c2_repairer_synthesis (tree : TreeMap) (prevN : Option String) (nid : String)
    (hne : nid ≠ emptyStr) (habs : alookup tree nid = none) :
    (parentCand prevN ≠ some nid →
      alookup (normalizeTreeStep tree prevN (some nid)) nid =
        some { l := normLabel, p := parentCand prevN,
               level := levelForParent tree (parentCand prevN), children := [],
               type := some NType.standard }) ∧
    (parentCand prevN = some nid →
      alookup (normalizeTreeStep tree prevN (some nid)) nid =
        some { l := normLabel, p := some nid, level := 0, children := [nid],
               type := some NType.standard }) ∧
    (∀ pn pnode, parentCand prevN = some pn → alookup tree pn = some pnode →
      alookup (normalizeTreeStep tree prevN (some nid)) pn =
        some { pnode with children :=
          if nid ∈ pnode.children then pnode.children else pnode.children ++ [nid] } ∧
      (nid ∉ pnode.children → List.count nid (pnode.children ++ [nid]) = 1)) ∧
    normalizeTreeStep (normalizeTreeStep tree prevN (some nid)) prevN (some nid) =
      normalizeTreeStep tree prevN (some nid) := by
  refine ⟨?_, ?_, ?_, ?_⟩
  · intro hpc
    simp only [normalizeTreeStep, if_neg hne, habs]
    unfold appendChild
    cases hpcc : parentCand prevN with
    | none => exact alookup_aset_self tree nid _
    | some pn =>
      dsimp only
      have hpn : pn ≠ nid := fun h => hpc (by rw [hpcc, h])
      rw [alookup_aset_ne tree nid pn _ (by exact hpn)]
      cases hl : alookup tree pn with
      | none => simpa [hpcc] using alookup_aset_self tree nid _
      | some nd =>
        by_cases hmem : nid ∈ nd.children
        · simpa [hpcc, hmem] using alookup_aset_self tree nid _
        · simp only [hpcc, if_neg hmem]
          rw [alookup_aset_ne _ pn nid _ (Ne.symm hpn)]
          simpa [hpcc] using alookup_aset_self tree nid _
  · intro hpc
    have hlvl : levelForParent tree (some nid) = 0 := by
      simp [levelForParent, habs]
    simp only [normalizeTreeStep, if_neg hne, habs, hpc, hlvl]
    unfold appendChild
    dsimp only
    rw [alookup_aset_self]
    simp [alookup_aset_self]
  · intro pn pnode hpcc hpnode
    have hpn : pn ≠ nid := by
      intro h
      rw [h, habs] at hpnode
      cases hpnode
    constructor
    · simp only [normalizeTreeStep, if_neg hne, habs]
      unfold appendChild
      rw [hpcc]
      dsimp only
      rw [alookup_aset_ne tree nid pn _ hpn, hpnode]
      dsimp only
      by_cases hmem : nid ∈ pnode.children
      · rw [if_pos hmem]
        rw [alookup_aset_ne tree nid pn _ hpn, hpnode]
        simp [hmem]
      · rw [if_neg hmem]
        rw [alookup_aset_self]
        simp [hmem]
    · intro hmem
      rw [List.count_append, List.count_eq_zero.mpr hmem]
      simp
  · obtain ⟨nd, hnd⟩ := Option.isSome_iff_exists.mp
      (normalizeTreeStep_self tree prevN nid hne)
    conv_lhs => rw [normalizeTreeStep]
    rw [if_neg hne, hnd]

/-- The spec example map for graph repair: an existing node n2 at level 1. -/
def exTreeN2 : TreeMap :=
  [(n2Lit, { l := naLit, p := none, level := 1, children := [], type := some NType.standard })]

/-- Witness for C2 at the spec example: repairing a reference to n5 after a
step that referenced n2 synthesizes n5 under n2 at level 2; and in the
self-reference case (previous step carried the same absent id n5) the
synthesized node is self-parented with itself as only child. -/
theorem c2_repairer_synthesis_witness :
    alookup (normalizeTreeStep exTreeN2 (some n2Lit) (some n5Lit)) n5Lit =
      some { l := normLabel, p := some n2Lit, level := 2, children := [],
             type := some NType.standard } ∧
    alookup (normalizeTreeStep [] (some n5Lit) (some n5Lit)) n5Lit =
      some { l := normLabel, p := some n5Lit, level := 0, children := [n5Lit],
             type := some NType.standard } :=
  ⟨(c2_repairer_synthesis exTreeN2 (some n2Lit) n5Lit (by decide) rfl).1 (by decide),
   (c2_repairer_synthesis [] (some n5Lit) n5Lit (by decide) rfl).2.1 rfl⟩

/-- First step skipped (no snapshot) but carrying reference a; second step
references b, absent from the empty map. -/
def exC2bad : SimulationData :=
  mkData
    [{ L := 1, s := none, n := some aLit, out := none },
     { L := 2, s := some (plainState 0 []), n := some bLit, out := none }] []

/-- Counterexample to C2 as stated: the previous step reference a is not
present in the map (its own step was skipped), so the claim requires the
synthesized node b to get a null parent; the code stores the dangling id a
as the parent instead. -/
theorem c2_dangling_parent_counterexample :
    alookup (normalizeData exC2bad).tree bLit =
      some { l := normLabel, p := some aLit, level := 0, children := [],
             type := some NType.standard } ∧
    alookup (normalizeData exC2bad).tree aLit = none :=
  ⟨rfl, rfl⟩

/-! Lemmas about the carry-forward folds. -/

theorem inherit_lookup_some : ∀ (pv m : VarMap) (k : String) (v : Value),
    alookup m k = some v → alookup (inheritScalars pv m) k = some v
  | [], _, _, _, h => h
  | (k0, w) :: rest, m, k, v, h => by
    simp only [inheritScalars, List.foldl_cons]
    by_cases hc : (!isArr w && (alookup m k0).isNone) = true
    · rw [if_pos hc]
      have hk0 : k0 ≠ k := by
        intro he
        subst he
        rw [h] at hc
        simp at hc
      have : alookup (aset m k0 w) k = some v := by
        rw [alookup_aset_ne m k0 k w (Ne.symm hk0)]; exact h
      exact inherit_lookup_some rest (aset m k0 w) k v this
    · rw [if_neg hc]
      exact inherit_lookup_some rest m k v h

theorem inherit_isSome (pv m : VarMap) (k : String)
    (h : (alookup m k).isSome) : (alookup (inheritScalars pv m) k).isSome := by
  obtain ⟨v, hv⟩ := Option.isSome_iff_exists.mp h
  rw [inherit_lookup_some pv m k v hv]
  rfl

theorem inherit_first : ∀ (pv m : VarMap) (k : String) (v : Value),
    alookup m k = none → alookup pv k = some v → isArr v = false →
    alookup (inheritScalars pv m) k = some v
  | [], _, _, _, _, hpv, _ => by simp [alookup] at hpv
  | (k0, w) :: rest, m, k, v, hm, hpv, hv => by
    simp only [inheritScalars, List.foldl_cons]
    by_cases hk0 : k0 = k
    · subst hk0
      simp [alookup] at hpv
      subst hpv
      have hc : (!isArr w && (alookup m k0).isNone) = true := by
        simp [hv, hm]
      rw [if_pos hc]
      exact inherit_lookup_some rest (aset m k0 w) k0 w (alookup_aset_self m k0 w)
    · have hpv' : alookup rest k = some v := by
        simpa [alookup, hk0] using hpv
      by_cases hc : (!isArr w && (alookup m k0).isNone) = true
      · rw [if_pos hc]
        have hm' : alookup (aset m k0 w) k = none := by
          rw [alookup_aset_ne m k0 k w (Ne.symm hk0)]; exact hm
        exact inherit_first rest (aset m k0 w) k v hm' hpv' hv
      · rw [if_neg hc]
        exact inherit_first rest m k v hm hpv' hv

theorem inherit_added : ∀ (pv m : VarMap) (k : String) (w : Value),
    alookup m k = none → alookup (inheritScalars pv m) k = some w → isArr w = false
  | [], m, k, w, hm, h => by
    simp only [inheritScalars, List.foldl_nil] at h
    rw [hm] at h
    cases h
  | (k0, w0) :: rest, m, k, w, hm, h => by
    simp only [inheritScalars, List.foldl_cons] at h
    by_cases hc : (!isArr w0 && (alookup m k0).isNone) = true
    · rw [if_pos hc] at h
      by_cases hk0 : k0 = k
      · subst hk0
        have h2 : alookup (inheritScalars rest (aset m k0 w0)) k0 = some w := h
        rw [inherit_lookup_some rest (aset m k0 w0) k0 w0 (alookup_aset_self m k0 w0)] at h2
        cases h2
        have hparts := Bool.and_eq_true _ _ |>.mp hc
        simpa using hparts.1
      · have hm' : alookup (aset m k0 w0) k = none := by
          rw [alookup_aset_ne m k0 k w0 (Ne.symm hk0)]; exact hm
        exact inherit_added rest (aset m k0 w0) k w hm' h
    · rw [if_neg hc] at h
      exact inherit_added rest m k w hm h

theorem inherit_covers : ∀ (pv m : VarMap), ∀ e ∈ pv, isArr e.2 = false →
    (alookup (inheritScalars pv m) e.1).isSome
  | [], _, e, he, _ => by simp at he
  | (k0, w0) :: rest, m, e, he, harr => by
    simp only [inheritScalars, List.foldl_cons]
    rcases List.mem_cons.mp he with heq | hmem
    · subst heq
      by_cases hc : (!isArr w0 && (alookup m k0).isNone) = true
      · rw [if_pos hc]
        exact inherit_isSome rest _ k0 (by simp [alookup_aset_self])
      · rw [if_neg hc]
        simp only [harr] at hc
        have : (alookup m k0).isSome := by
          cases hs : (alookup m k0).isNone
          · simpa using hs
          · simp [hs] at hc
        exact inherit_isSome rest m k0 this
    · by_cases hc : (!isArr w0 && (alookup m k0).isNone) = true
      · rw [if_pos hc]
        exact inherit_covers rest (aset m k0 w0) e hmem harr
      · rw [if_neg hc]
        exact inherit_covers rest m e hmem harr

theorem inherit_noop : ∀ (pv m : VarMap),
    (∀ e ∈ pv, isArr e.2 = false → (alookup m e.1).isSome) → inheritScalars pv m = m
  | [], _, _ => rfl
  | (k0, w0) :: rest, m, h => by
    simp only [inheritScalars, List.foldl_cons]
    have hc : (!isArr w0 && (alookup m k0).isNone) = false := by
      cases harr : isArr w0 with
      | true => simp [harr]
      | false =>
        have hs := h (k0, w0) (List.mem_cons_self _ _) harr
        have hnn : (alookup m k0).isNone = false := by
          cases hx : alookup m k0 with
          | none => rw [hx] at hs; cases hs
          | some v => simp [hx]
        simp [hnn]
    rw [if_neg (by simp [hc])]
    exact inherit_noop rest m fun e he harr => h e (List.mem_cons_of_mem _ he) harr

theorem inherit_ext : ∀ (pv m : VarMap), ∃ ext, inheritScalars pv m = m ++ ext ∧
    ∀ e ∈ ext, isArr e.2 = false ∧ alookup m e.1 = none
  | [], m => ⟨[], by simp [inheritScalars], by simp⟩
  | (k0, w0) :: rest, m => by
    simp only [inheritScalars, List.foldl_cons]
    by_cases hc : (!isArr w0 && (alookup m k0).isNone) = true
    · rw [if_pos hc]
      have hm0 : alookup m k0 = none := by
        have := And.right (by simpa using hc)
        simpa [Option.isNone_iff_eq_none] using this
      have harr0 : isArr w0 = false := by
        have := And.left (by simpa using hc)
        simpa using this
      obtain ⟨ext, hext, hprop⟩ := inherit_ext rest (aset m k0 w0)
      refine ⟨(k0, w0) :: ext, ?_, ?_⟩
      · show inheritScalars rest (aset m k0 w0) = m ++ (k0, w0) :: ext
        rw [hext, aset_eq_append m k0 w0 hm0, List.append_assoc]
        rfl
      · intro e he
        rcases List.mem_cons.mp he with heq | hmem
        · subst heq
          exact ⟨harr0, hm0⟩
        · obtain ⟨ha, hn⟩ := hprop e hmem
          refine ⟨ha, ?_⟩
          rw [aset_eq_append m k0 w0 hm0, alookup_append] at hn
          cases hmn : alookup m e.1 with
          | none => rfl
          | some v => rw [hmn] at hn; cases hn
    · rw [if_neg hc]
      exact inherit_ext rest m

theorem backfillArrays_cons (k0 : String) (w : Value) (rest m : VarMap) :
    backfillArrays ((k0, w) :: rest) m =
      backfillArrays rest
        (match alookup m k0 with
         | none => aset m k0 w
         | some _ => m) := rfl

theorem backfill_lookup_some : ∀ (pa m : VarMap) (k : String) (v : Value),
    alookup m k = some v → alookup (backfillArrays pa m) k = some v
  | [], _, _, _, h => h
  | (k0, w) :: rest, m, k, v, h => by
    simp only [backfillArrays, List.foldl_cons]
    cases hl : alookup m k0 with
    | none =>
      have hk0 : k0 ≠ k := fun he => by rw [he, h] at hl; cases hl
      have h' : alookup (aset m k0 w) k = some v := by
        rw [alookup_aset_ne m k0 k w (Ne.symm hk0)]; exact h
      exact backfill_lookup_some rest (aset m k0 w) k v h'
    | some u => exact backfill_lookup_some rest m k v h

theorem backfill_isSome (pa m : VarMap) (k : String)
    (h : (alookup m k).isSome) : (alookup (backfillArrays pa m) k).isSome := by
  obtain ⟨v, hv⟩ := Option.isSome_iff_exists.mp h
  rw [backfill_lookup_some pa m k v hv]
  rfl

theorem backfill_covers : ∀ (pa m : VarMap), ∀ e ∈ pa,
    (alookup (backfillArrays pa m) e.1).isSome
  | [], _, e, he => by simp at he
  | (k0, w) :: rest, m, e, he => by
    simp only [backfillArrays, List.foldl_cons]
    rcases List.mem_cons.mp he with heq | hmem
    · subst heq
      cases hl : alookup m k0 with
      | none => exact backfill_isSome rest _ k0 (by simp [alookup_aset_self])
      | some u => exact backfill_isSome rest m k0 (by simp [hl])
    · cases hl : alookup m k0 with
      | none => exact backfill_covers rest (aset m k0 w) e hmem
      | some u => exact backfill_covers rest m e hmem

theorem backfill_lookup_of_none : ∀ (pa m : VarMap) (k : String),
    (keysOf pa).Nodup → alookup m k = none →
    alookup (backfillArrays pa m) k = alookup pa k
  | [], m, k, _, hm => by simpa [backfillArrays, alookup] using hm
  | (k0, w) :: rest, m, k, hnd, hm => by
    rw [backfillArrays_cons]
    have hnd' : (keysOf rest).Nodup := by
      simpa [keysOf] using (List.nodup_cons.mp (by simpa [keysOf] using hnd)).2
    by_cases hk0 : k0 = k
    · subst hk0
      simp only [hm]
      have hrest : alookup rest k0 = none := by
        apply alookup_eq_none_of_forall
        intro e he hek
        have hk0mem : k0 ∈ keysOf rest := by
          rw [← hek]
          exact List.mem_map_of_mem Prod.fst he
        exact (List.nodup_cons.mp (by simpa [keysOf] using hnd)).1 hk0mem
      rw [backfill_lookup_some rest (aset m k0 w) k0 w (alookup_aset_self m k0 w)]
      simp [alookup]
    · cases hl : alookup m k0 with
      | none =>
        simp only [hl]
        have hm' : alookup (aset m k0 w) k = none := by
          rw [alookup_aset_ne m k0 k w (Ne.symm hk0)]; exact hm
        rw [backfill_lookup_of_none rest (aset m k0 w) k hnd' hm']
        simp [alookup, hk0]
      | some u =>
        simp only [hl]
        rw [backfill_lookup_of_none rest m k hnd' hm]
        simp [alookup, hk0]

theorem backfill_noop : ∀ (pa m : VarMap),
    (∀ e ∈ pa, (alookup m e.1).isSome) → backfillArrays pa m = m
  | [], _, _ => rfl
  | (k0, w) :: rest, m, h => by
    simp only [backfillArrays, List.foldl_cons]
    have hs := h (k0, w) (List.mem_cons_self _ _)
    cases hl : alookup m k0 with
    | none => rw [hl] at hs; cases hs
    | some u =>
      simp only [hl]
      exact backfill_noop rest m fun e he => h e (List.mem_cons_of_mem _ he)

theorem backfill_ext : ∀ (pa m : VarMap), ∃ ext, backfillArrays pa m = m ++ ext ∧
    ∀ e ∈ ext, e ∈ pa ∧ alookup m e.1 = none
  | [], m => ⟨[], by simp [backfillArrays], by simp⟩
  | (k0, w) :: rest, m => by
    simp only [backfillArrays, List.foldl_cons]
    cases hl : alookup m k0 with
    | none =>
      obtain ⟨ext, hext, hprop⟩ := backfill_ext rest (aset m k0 w)
      refine ⟨(k0, w) :: ext, ?_, ?_⟩
      · show backfillArrays rest (aset m k0 w) = m ++ (k0, w) :: ext
        rw [hext, aset_eq_append m k0 w hl, List.append_assoc]
        rfl
      · intro e he
        rcases List.mem_cons.mp he with heq | hmem
        · subst heq
          exact ⟨List.mem_cons_self _ _, hl⟩
        · obtain ⟨hpa, hn⟩ := hprop e hmem
          refine ⟨List.mem_cons_of_mem _ hpa, ?_⟩
          rw [aset_eq_append m k0 w hl, alookup_append] at hn
          cases hmn : alookup m e.1 with
          | none => rfl
          | some v => rw [hmn] at hn; cases hn
    | some u =>
      obtain ⟨ext, hext, hprop⟩ := backfill_ext rest m
      exact ⟨ext, hext, fun e he =>
        ⟨List.mem_cons_of_mem _ (hprop e he).1, (hprop e he).2⟩⟩

/-- The value of the last array-valued entry under a key, read in entry
order, mirroring the sequential overwrites of the persistent table. -/
def lastArrVal : VarMap → String → Option Value
  | [], _ => none
  | (k0, v) :: rest, k =>
    match lastArrVal rest k with
    | some w => some w
    | none => if k0 = k ∧ isArr v = true then some v else none

theorem lastArrVal_append (a b : VarMap) (k : String) :
    lastArrVal (a ++ b) k =
      match lastArrVal b k with
      | some w => some w
      | none => lastArrVal a k := by
  induction a with
  | nil =>
    simp only [List.nil_append, lastArrVal]
    cases hb : lastArrVal b k <;> simp
  | cons e rest ih =>
    obtain ⟨k0, v⟩ := e
    simp only [List.cons_append, lastArrVal, List.append_eq]
    rw [ih]
    cases hb : lastArrVal b k <;> cases hr : lastArrVal rest k <;> simp

theorem lastArrVal_none_of_no_arr (m : VarMap) (k : String)
    (h : ∀ e ∈ m, e.1 = k → isArr e.2 = false) : lastArrVal m k = none := by
  induction m with
  | nil => rfl
  | cons e rest ih =>
    obtain ⟨k0, v⟩ := e
    have hrest : lastArrVal rest k = none :=
      ih fun e he hek => h e (List.mem_cons_of_mem _ he) hek
    simp only [lastArrVal, hrest]
    by_cases hk : k0 = k
    · have := h (k0, v) (List.mem_cons_self _ _) hk
      simp [this]
    · simp [hk]

theorem lastArrVal_mem (m : VarMap) (k : String) (v : Value)
    (h : lastArrVal m k = some v) : (k, v) ∈ m ∧ isArr v = true := by
  induction m with
  | nil => cases h
  | cons e rest ih =>
    obtain ⟨k0, w⟩ := e
    simp only [lastArrVal] at h
    cases hrest : lastArrVal rest k with
    | some u =>
      rw [hrest] at h
      cases h
      obtain ⟨hm, ha⟩ := ih hrest
      exact ⟨List.mem_cons_of_mem _ hm, ha⟩
    | none =>
      rw [hrest] at h
      by_cases hc : k0 = k ∧ isArr w = true
      · rw [if_pos hc] at h
        cases h
        exact ⟨by rw [← hc.1]; exact List.mem_cons_self _ _, hc.2⟩
      · rw [if_neg hc] at h
        cases h

theorem recordArrays_cons (k0 : String) (w : Value) (rest pa : VarMap) :
    recordArrays ((k0, w) :: rest) pa =
      recordArrays rest (if isArr w then aset pa k0 w else pa) := rfl

theorem record_lookup : ∀ (m pa : VarMap) (k : String),
    alookup (recordArrays m pa) k =
      match lastArrVal m k with
      | some v => some v
      | none => alookup pa k
  | [], pa, k => by simp [recordArrays, lastArrVal]
  | (k0, w) :: rest, pa, k => by
    rw [recordArrays_cons, record_lookup rest _ k]
    simp only [lastArrVal]
    cases hrest : lastArrVal rest k with
    | some u => simp
    | none =>
      simp only
      by_cases harr : isArr w
      · rw [if_pos harr]
        by_cases hk : k0 = k
        · subst hk
          rw [if_pos ⟨rfl, harr⟩, alookup_aset_self]
        · rw [if_neg (fun hc => hk hc.1), alookup_aset_ne pa k0 k w (Ne.symm hk)]
      · rw [if_neg harr, if_neg (fun hc => by rw [hc.2] at harr; exact harr rfl)]

theorem record_mem : ∀ (m pa : VarMap), ∀ e ∈ recordArrays m pa,
    e ∈ pa ∨ (e ∈ m ∧ isArr e.2 = true)
  | [], pa, e, he => Or.inl he
  | (k0, w) :: rest, pa, e, he => by
    rw [recordArrays_cons] at he
    rcases record_mem rest _ e he with hpa | ⟨hm, ha⟩
    · by_cases harr : isArr w
      · rw [if_pos harr] at hpa
        rcases mem_aset pa k0 w e hpa with h | h
        · exact Or.inl h
        · exact Or.inr ⟨by rw [h]; exact List.mem_cons_self _ _, by rw [h]; exact harr⟩
      · rw [if_neg harr] at hpa
        exact Or.inl hpa
    · exact Or.inr ⟨List.mem_cons_of_mem _ hm, ha⟩

theorem record_nodup : ∀ (m pa : VarMap),
    (keysOf pa).Nodup → (keysOf (recordArrays m pa)).Nodup
  | [], _, h => h
  | (k0, w) :: rest, pa, h => by
    rw [recordArrays_cons]
    by_cases harr : isArr w
    · rw [if_pos harr]
      exact record_nodup rest _ (nodup_keys_aset pa k0 w h)
    · rw [if_neg harr]
      exact record_nodup rest pa h

theorem record_isSome_mono (m pa : VarMap) (k : String)
    (h : (alookup pa k).isSome) : (alookup (recordArrays m pa) k).isSome := by
  rw [record_lookup]
  cases lastArrVal m k with
  | some v => rfl
  | none => exact h

def iLit : String := "i"

/-- C4: in the carry-forward pass, a scalar variable present in the
previous step mapping and absent from the current step mapping at the
point the scalar rule applies (after sanitization and array backfill) is
copied into the current step exactly when the two stack depths are equal
under the loose JS equality across numeric and string representations;
when the depths differ the variable stays absent; and this rule never
introduces an array value. -/
theorem c4_scalar_carry_gated (st : PassSt) (prevStep : SimulationStep)
    (pss ss : StepState) (v : String)
    (hprev : st.prev = some prevStep) (hps : prevStep.s = some pss)
    (habsent : alookup (varsAfterBackfill st ss) v = none) :
    (∀ val, alookup (pss.vars.getD []) v = some val → isArr val = false →
      alookup (varsAfterInherit st ss) v =
        (if looseEqH pss.h ss.h then some val else none)) ∧
    (∀ w, alookup (varsAfterInherit st ss) v = some w → isArr w = false) := by
  constructor
  · intro val hval harr
    unfold varsAfterInherit
    rw [hprev]
    dsimp only
    rw [hps]
    dsimp only
    by_cases hq : looseEqH pss.h ss.h
    · rw [if_pos hq, if_pos hq]
      exact inherit_first _ _ v val habsent hval harr
    · rw [if_neg hq, if_neg hq]
      exact habsent
  · intro w hw
    unfold varsAfterInherit at hw
    rw [hprev] at hw
    dsimp only at hw
    rw [hps] at hw
    dsimp only at hw
    by_cases hq : looseEqH pss.h ss.h
    · rw [if_pos hq] at hw
      exact inherit_added _ _ v w habsent hw
    · rw [if_neg hq] at hw
      rw [habsent] at hw
      cases hw

def exPss4 : StepState := plainState 1 [(iLit, Value.vNum 5)]

def exPrev4 : SimulationStep := { L := 1, s := some exPss4, n := none, out := none }

def exSS4 : StepState := plainState 1 []

def exSt4 : PassSt := { prev := some exPrev4, pa := [], tree := [] }

/-- Witness for C4 at the spec example: equal depths 1 and 1, so i = 5 is
inherited. -/
theorem c4_scalar_carry_gated_witness :
    alookup (varsAfterInherit exSt4 exSS4) iLit = some (Value.vNum 5) := by
  have h := (c4_scalar_carry_gated exSt4 exPrev4 exPss4 exSS4 iLit rfl rfl rfl).1
    (Value.vNum 5) rfl rfl
  simpa [show looseEqH exPss4.h exSS4.h = true from rfl] using h

/-! Array persistence infrastructure. -/

theorem keysOf_cleanVars (m : VarMap) : keysOf (cleanVars m) = keysOf m := by
  induction m with
  | nil => rfl
  | cons e rest ih =>
    obtain ⟨k0, w⟩ := e
    cases w <;> simpa [cleanVars, keysOf] using congrArg (List.cons k0) ih

theorem lastArrVal_of_nodup (m : VarMap) (k : String) (hnd : (keysOf m).Nodup) :
    lastArrVal m k =
      match alookup m k with
      | some w => if isArr w = true then some w else none
      | none => none := by
  induction m with
  | nil => rfl
  | cons e rest ih =>
    obtain ⟨k0, w⟩ := e
    have hnd0 : (∀ x : Value, (k0, x) ∉ rest) ∧ (keysOf rest).Nodup := by
      simpa [keysOf] using hnd
    have hrestnd : (keysOf rest).Nodup := hnd0.2
    by_cases hk : k0 = k
    · subst hk
      have hrestnone : alookup rest k0 = none := by
        apply alookup_eq_none_of_forall
        intro e he hek
        obtain ⟨e1, e2⟩ := e
        simp only at hek
        exact hnd0.1 e2 (hek ▸ he)
      have hrarr : lastArrVal rest k0 = none := by
        rw [ih hrestnd, hrestnone]
      simp only [lastArrVal, hrarr, alookup, if_pos rfl]
      by_cases harr : isArr w = true
      · simp [harr]
      · simp [harr]
    · have hlook : alookup ((k0, w) :: rest) k = alookup rest k := by
        simp [alookup, hk]
      simp only [lastArrVal, ih hrestnd, hlook]
      cases hr : alookup rest k with
      | none => simp [hk]
      | some u =>
        by_cases harr : isArr u = true
        · simp [harr]
        · simp [harr, hk]

/-- The last array value supplied for a variable, across a raw step list
(the persistentArrays table records the cleaned version of exactly these). -/
def lastArrayDef : List SimulationStep → String → Option (List Value)
  | [], _ => none
  | st :: rest, v =>
    match lastArrayDef rest v with
    | some a => some a
    | none =>
      match st.s with
      | some ss =>
        match alookup (ss.vars.getD []) v with
        | some (Value.vArr a) => some a
        | _ => none
      | none => none

theorem lastArrayDef_append (a b : List SimulationStep) (v : String) :
    lastArrayDef (a ++ b) v =
      match lastArrayDef b v with
      | some x => some x
      | none => lastArrayDef a v := by
  induction a with
  | nil =>
    simp only [List.nil_append, lastArrayDef]
    cases hb : lastArrayDef b v <;> simp
  | cons st rest ih =>
    simp only [List.cons_append, lastArrayDef, List.append_eq]
    rw [ih]
    cases hb : lastArrayDef b v <;> cases hr : lastArrayDef rest v <;> simp

theorem lastArrayDef_isSome_of (l : List SimulationStep) (v : String)
    (st : SimulationStep) (ss : StepState) (a : List Value)
    (hmem : st ∈ l) (hss : st.s = some ss)
    (hdef : alookup (ss.vars.getD []) v = some (Value.vArr a)) :
    (lastArrayDef l v).isSome := by
  induction l with
  | nil => simp at hmem
  | cons x rest ih =>
    rcases List.mem_cons.mp hmem with heq | hmem'
    · subst heq
      simp only [lastArrayDef]
      cases hr : lastArrayDef rest v with
      | some u => rfl
      | none => simp [hss, hdef]
    · simp only [lastArrayDef]
      cases hr : lastArrayDef rest v with
      | some u => rfl
      | none => rw [hr] at ih; exact absurd (ih hmem') (by simp)

/-- Per-variable nodup wellformedness of the raw step list, justified by JS
objects holding each key once. -/
def stepsVarsWF (steps : List SimulationStep) : Prop :=
  ∀ st ∈ steps, ∀ ss, st.s = some ss → ∀ m, ss.vars = some m → (keysOf m).Nodup

theorem stepVarsWF_nodup {st : SimulationStep} {ss : StepState}
    (h : ∀ ss', st.s = some ss' → ∀ m, ss'.vars = some m → (keysOf m).Nodup)
    (hss : st.s = some ss) : (keysOf (ss.vars.getD [])).Nodup := by
  cases hv : ss.vars with
  | none => simp [keysOf]
  | some m => simpa using h ss hss m hv

/-- The table update of a single loop iteration, seen through one variable. -/
theorem processStep_pa_v (st : PassSt) (raw : SimulationStep) (v : String)
    (hwf : ∀ ss, raw.s = some ss → ∀ m, ss.vars = some m → (keysOf m).Nodup) :
    alookup (processStep st raw).2.pa v =
      match lastArrayDef [raw] v with
      | some a => some (Value.vArr (cleanArray a))
      | none => alookup st.pa v := by
  cases hs : raw.s with
  | none => simp [processStep, hs, lastArrayDef]
  | some ss =>
    have hnd : (keysOf (ss.vars.getD [])).Nodup := stepVarsWF_nodup hwf hs
    have hndc : (keysOf (cleanedVars ss)).Nodup := by
      simpa [cleanedVars, keysOf_cleanVars] using hnd
    have hpa : (processStep st raw).2.pa = paAfter st ss := by simp [processStep, hs]
    rw [hpa]
    unfold paAfter
    rw [record_lookup, lastArrVal_of_nodup _ _ hndc]
    unfold cleanedVars
    rw [alookup_cleanVars]
    simp only [lastArrayDef, hs]
    cases hl : alookup (ss.vars.getD []) v with
    | none => simp
    | some w => cases w <;> simp [isArr]

theorem runPass_append : ∀ (xs ys : List SimulationStep) (st : PassSt),
    runPass (xs ++ ys) st =
      ((runPass xs st).1 ++ (runPass ys (runPass xs st).2).1,
        (runPass ys (runPass xs st).2).2)
  | [], ys, st => by simp [runPass]
  | x :: xs, ys, st => by
    simp only [List.cons_append, runPass, List.append_eq]
    rw [runPass_append xs ys (processStep st x).2]

theorem runPass_length : ∀ (xs : List SimulationStep) (st : PassSt),
    (runPass xs st).1.length = xs.length
  | [], _ => rfl
  | x :: xs, st => by
    simp [runPass, runPass_length xs (processStep st x).2]

theorem processStep_pa_nodup (st : PassSt) (raw : SimulationStep)
    (h : (keysOf st.pa).Nodup) : (keysOf (processStep st raw).2.pa).Nodup := by
  cases hs : raw.s with
  | none => simpa [processStep, hs] using h
  | some ss =>
    simp only [processStep, hs]
    exact record_nodup _ st.pa h

theorem runPass_pa_nodup : ∀ (raws : List SimulationStep) (st : PassSt),
    (keysOf st.pa).Nodup → (keysOf (runPass raws st).2.pa).Nodup
  | [], _, h => h
  | x :: xs, st, h => by
    simp only [runPass]
    exact runPass_pa_nodup xs (processStep st x).2 (processStep_pa_nodup st x h)

theorem runPass_pa_v : ∀ (raws : List SimulationStep) (st : PassSt) (v : String),
    stepsVarsWF raws →
    alookup (runPass raws st).2.pa v =
      match lastArrayDef raws v with
      | some a => some (Value.vArr (cleanArray a))
      | none => alookup st.pa v
  | [], _, _, _ => rfl
  | x :: xs, st, v, hwf => by
    simp only [runPass]
    have hwfx : ∀ ss, x.s = some ss → ∀ m, ss.vars = some m → (keysOf m).Nodup :=
      fun ss hss m hm => hwf x (List.mem_cons_self _ _) ss hss m hm
    have hwfxs : stepsVarsWF xs :=
      fun st' hmem ss hss m hm => hwf st' (List.mem_cons_of_mem _ hmem) ss hss m hm
    rw [runPass_pa_v xs (processStep st x).2 v hwfxs]
    rw [processStep_pa_v st x v hwfx]
    show _ =
      match lastArrayDef (x :: xs) v with
      | some a => some (Value.vArr (cleanArray a))
      | none => alookup st.pa v
    have hsplit : lastArrayDef (x :: xs) v =
        match lastArrayDef xs v with
        | some a => some a
        | none => lastArrayDef [x] v := by
      simp only [lastArrayDef]
    rw [hsplit]
    cases hxs : lastArrayDef xs v with
    | some a => simp
    | none =>
      cases hx : lastArrayDef [x] v with
      | some a => simp
      | none => simp

theorem varsAfterInherit_keeps (st : PassSt) (ss : StepState) (v : String) (w : Value)
    (h : alookup (varsAfterBackfill st ss) v = some w) :
    alookup (varsAfterInherit st ss) v = some w := by
  unfold varsAfterInherit
  cases hp : st.prev with
  | none => exact h
  | some pstep =>
    dsimp only
    cases hps : pstep.s with
    | none => exact h
    | some pss =>
      dsimp only
      by_cases hq : looseEqH pss.h ss.h
      · rw [if_pos hq]
        exact inherit_lookup_some _ _ v w h
      · rw [if_neg hq]
        exact h

/-- A step whose raw mapping omits a variable held by the table comes out
holding exactly the table value. -/
theorem processStep_out_v (st : PassSt) (ss : StepState) (v : String) (w : Value)
    (habs : alookup (ss.vars.getD []) v = none)
    (hpa : alookup st.pa v = some w) (hnd : (keysOf st.pa).Nodup)
    (hwf : (keysOf (ss.vars.getD [])).Nodup) :
    alookup (varsAfterInherit st ss) v = some w := by
  apply varsAfterInherit_keeps
  unfold varsAfterBackfill
  have habsc : alookup (cleanedVars ss) v = none := by
    unfold cleanedVars
    rw [alookup_cleanVars, habs]
  have hndc : (keysOf (cleanedVars ss)).Nodup := by
    simpa [cleanedVars, keysOf_cleanVars] using hwf
  have hndpa : (keysOf (paAfter st ss)).Nodup := record_nodup _ st.pa hnd
  rw [backfill_lookup_of_none _ _ v hndpa habsc]
  unfold paAfter
  rw [record_lookup]
  have : lastArrVal (cleanedVars ss) v = none := by
    rw [lastArrVal_of_nodup _ _ hndc, habsc]
  rw [this]
  exact hpa

theorem drop_head_of_getElem? {α : Type} (l : List α) (j : Nat) (x : α)
    (h : l[j]? = some x) : ∃ rest, l.drop j = x :: rest := by
  cases hd : l.drop j with
  | nil =>
    have : l[j]? = none := by
      have hlen : l.length ≤ j := by
        have := congrArg List.length hd
        simp only [List.length_drop, List.length_nil] at this
        omega
      exact List.getElem?_eq_none hlen
    rw [this] at h
    cases h
  | cons y rest =>
    refine ⟨rest, ?_⟩
    have h0 : (l.drop j)[0]? = some y := by rw [hd]; simp
    rw [List.getElem?_drop, Nat.add_zero, h] at h0
    injection h0 with hxy
    rw [hxy]

/-- C3 amended: if step i supplies variable v as an array and a later step
j (with a well-formed snapshot) does not itself supply any value for v,
then after reconcile, step j holds v equal to the sanitized version of the
array value last supplied at or before j. (The claim as stated also covers
a step j that supplies a non-array value for v; the code keeps that
supplied value, see the counterexample. The wellformedness hypothesis says
variable names inside one snapshot are unique, which JS objects enforce.) -/
theorem c3_array_persistence (data : SimulationData) (v : String) (i j : Nat)
    (si sj : SimulationStep) (ssi ssj : StepState) (a : List Value)
    (hwf : stepsVarsWF data.steps) (hij : i < j)
    (hi : data.steps[i]? = some si) (hsi : si.s = some ssi)
    (hdef : alookup (ssi.vars.getD []) v = some (Value.vArr a))
    (hj : data.steps[j]? = some sj) (hsj : sj.s = some ssj)
    (habs : alookup (ssj.vars.getD []) v = none) :
    ∃ aL, lastArrayDef (data.steps.take (j + 1)) v = some aL ∧
      ∃ outj m, (normalizeData data).steps[j]? = some outj ∧
        outj.s.bind StepState.vars = some m ∧
        alookup m v = some (Value.vArr (cleanArray aL)) := by
  have hjlen : j < data.steps.length := by
    by_contra hcon
    rw [List.getElem?_eq_none (Nat.le_of_not_lt hcon)] at hj
    cases hj
  have hwfTake : stepsVarsWF (data.steps.take j) := fun st hmem ss hss m hm =>
    hwf st (List.take_subset j data.steps hmem) ss hss m hm
  have hsiTake : (data.steps.take j)[i]? = some si := by
    rw [List.getElem?_take, if_pos hij, hi]
  have hsiMem : si ∈ data.steps.take j := List.getElem?_mem hsiTake
  have hLA : (lastArrayDef (data.steps.take j) v).isSome :=
    lastArrayDef_isSome_of _ v si ssi a hsiMem hsi hdef
  obtain ⟨aL, haL⟩ := Option.isSome_iff_exists.mp hLA
  have hpaJ : alookup (runPass (data.steps.take j) (initSt data.tree)).2.pa v =
      some (Value.vArr (cleanArray aL)) := by
    rw [runPass_pa_v _ _ v hwfTake, haL]
  have hndJ : (keysOf (runPass (data.steps.take j) (initSt data.tree)).2.pa).Nodup :=
    runPass_pa_nodup _ _ (by simp [initSt, keysOf])
  have hwfj : (keysOf (ssj.vars.getD [])).Nodup :=
    stepVarsWF_nodup (fun ss' hss' m hm => hwf sj (List.getElem?_mem hj) ss' hss' m hm) hsj
  -- the sanitized table value survives into step j
  have hval := processStep_out_v (runPass (data.steps.take j) (initSt data.tree)).2 ssj v
    (Value.vArr (cleanArray aL)) habs hpaJ hndJ hwfj
  -- locate the processed step j in the output
  obtain ⟨rest, hdrop⟩ := drop_head_of_getElem? data.steps j sj hj
  have hout : (normalizeData data).steps =
      (runPass (data.steps.take j) (initSt data.tree)).1 ++
        (runPass (data.steps.drop j)
          (runPass (data.steps.take j) (initSt data.tree)).2).1 := by
    show (runPass data.steps (initSt data.tree)).1 = _
    conv_lhs => rw [(List.take_append_drop j data.steps).symm]
    rw [runPass_append]
  have hlen1 : (runPass (data.steps.take j) (initSt data.tree)).1.length = j := by
    rw [runPass_length, List.length_take]
    exact Nat.min_eq_left (Nat.le_of_lt hjlen)
  have hidx : (normalizeData data).steps[j]? =
      some (processStep (runPass (data.steps.take j) (initSt data.tree)).2 sj).1 := by
    rw [hout, List.getElem?_append_right (by rw [hlen1]), hlen1, Nat.sub_self, hdrop]
    simp [runPass]
  refine ⟨aL, ?_, ?_⟩
  · rw [List.take_succ, hj]
    rw [lastArrayDef_append]
    have hcontrib : lastArrayDef (some sj).toList v = none := by
      simp [lastArrayDef, hsj, habs]
    rw [hcontrib, haL]
  · refine ⟨_, varsAfterInherit (runPass (data.steps.take j) (initSt data.tree)).2 ssj,
      hidx, ?_, hval⟩
    simp [processStep, hsj]

def arrLit : String := "arr"

/-- The spec example document for array persistence. -/
def exC3w : SimulationData :=
  mkData
    [{ L := 1,
       s := some (plainState 0
         [(arrLit, Value.vArr [Value.vNum 1, Value.vNum 2, Value.vNum 3])]),
       n := none, out := none },
     { L := 2, s := some (plainState 0 []), n := none, out := none }] []

/-- Witness for C3 at the spec example: arr defined at step 0 is backfilled
into step 1. -/
theorem c3_array_persistence_witness :
    ∃ aL, lastArrayDef (exC3w.steps.take 2) arrLit = some aL ∧
      ∃ outj m, (normalizeData exC3w).steps[1]? = some outj ∧
        outj.s.bind StepState.vars = some m ∧
        alookup m arrLit = some (Value.vArr (cleanArray aL)) := by
  refine c3_array_persistence exC3w arrLit 0 1 _ _
    (plainState 0 [(arrLit, Value.vArr [Value.vNum 1, Value.vNum 2, Value.vNum 3])])
    (plainState 0 []) [Value.vNum 1, Value.vNum 2, Value.vNum 3] ?_ (by omega)
    rfl rfl rfl rfl rfl rfl
  intro st hmem ss hss m hm
  simp only [exC3w, mkData, List.mem_cons, List.not_mem_nil, or_false] at hmem
  rcases hmem with rfl | rfl <;> (cases hss; cases hm; decide)

/-- An array-named variable redefined with a scalar at the next step. -/
def exC3bad : SimulationData :=
  mkData
    [{ L := 1, s := some (plainState 0 [(aLit, Value.vArr [Value.vNum 1])]),
       n := none, out := none },
     { L := 2, s := some (plainState 0 [(aLit, Value.vNum 5)]),
       n := none, out := none }] []

/-- Counterexample to C3 as stated: variable a holds an array at step 0 and
no step redefines it with a new array, so the claim requires step 1 to map
a to that array; the code keeps the scalar 5 that step 1 itself supplies
(backfill only fills absent names). -/
theorem c3_scalar_override_counterexample :
    (normalizeData exC3bad).steps.map (fun st => st.s.bind StepState.vars) =
      [some [(aLit, Value.vArr [Value.vNum 1])], some [(aLit, Value.vNum 5)]] ∧
    lastArrayDef exC3bad.steps aLit = some [Value.vNum 1] :=
  ⟨rfl, rfl⟩

/-! Layout claims. -/

def n1Lit : String := "n1"

def mainLit : String := "main"

def missingLit : String := "missing"

def printfCallLit : String := "printf(...)"

/-- A single-root map. -/
def exTree1 : TreeMap :=
  [(n1Lit, { l := mainLit, p := none, level := 0, children := [], type := none })]

/-- C8: the forest layout is a pure function of its inputs, so two calls
with identical arguments return identical node and link lists, and the
synthetic super-root is invisible: no returned node carries its id and no
returned link has it as source. -/
theorem c8_layout_determinism (tree : TreeMap) (vw vh : ℚ) :
    calculateTreeLayout tree vw vh = calculateTreeLayout tree vw vh ∧
    (∀ n ∈ (calculateTreeLayout tree vw vh).nodes, n.id ≠ SUPER_ROOT_ID) ∧
    (∀ l ∈ (calculateTreeLayout tree vw vh).links, l.src ≠ SUPER_ROOT_ID) := by
  refine ⟨rfl, ?_, ?_⟩
  · intro n hn
    unfold calculateTreeLayout at hn
    by_cases hk : (keysOf tree).isEmpty
    · simp [hk] at hn
    · rw [if_neg hk] at hn
      simp only at hn
      obtain ⟨e, he, hmap⟩ := List.mem_map.mp hn
      have hf := (List.mem_filter.mp he).2
      subst hmap
      simpa using hf
  · intro l hl
    unfold calculateTreeLayout at hl
    by_cases hk : (keysOf tree).isEmpty
    · simp [hk] at hl
    · rw [if_neg hk] at hl
      simp only at hl
      have hf := (List.mem_filter.mp hl).2
      simpa using hf

/-- Witness for C8 on the single-root map. -/
theorem c8_layout_determinism_witness : n1Lit ≠ SUPER_ROOT_ID := by
  apply (c8_layout_determinism exTree1 800 100).2.1 { id := n1Lit, depth := 1, y := 0 }
  have h1 : (calculateTreeLayout exTree1 800 100).nodes =
      [{ id := n1Lit, depth := 1,
         y := max 0 ((((1:ℕ)):ℚ) *
           ((max 100 ((((1:ℕ)):ℚ) * LEVEL_HEIGHT)) / (((1:ℕ)):ℚ)) - LEVEL_HEIGHT) }] := rfl
  have h2 : max (0:ℚ) ((((1:ℕ)):ℚ) *
      ((max 100 ((((1:ℕ)):ℚ) * LEVEL_HEIGHT)) / (((1:ℕ)):ℚ)) - LEVEL_HEIGHT) = 0 := by
    norm_num [LEVEL_HEIGHT]
  rw [h1, h2]
  exact List.mem_cons_self _ _

theorem levelEntries_depth_ge : ∀ (ls : List (List String)) (d : Nat),
    ∀ e ∈ levelEntries ls d, d ≤ e.2
  | [], _, e, he => by simp [levelEntries] at he
  | lvl :: rest, d, e, he => by
    simp only [levelEntries] at he
    rcases List.mem_append.mp he with h | h
    · obtain ⟨id, _, hmap⟩ := List.mem_map.mp h
      rw [← hmap]
    · exact Nat.le_of_succ_le (levelEntries_depth_ge rest (d + 1) e h)

theorem levelEntries_mem_level : ∀ (ls : List (List String)) (d : Nat),
    ∀ e ∈ levelEntries ls d, ∃ lvl ∈ ls, e.1 ∈ lvl
  | [], _, e, he => by simp [levelEntries] at he
  | lvl :: rest, d, e, he => by
    simp only [levelEntries] at he
    rcases List.mem_append.mp he with h | h
    · obtain ⟨id, hid, hmap⟩ := List.mem_map.mp h
      exact ⟨lvl, List.mem_cons_self _ _, by rw [← hmap]; exact hid⟩
    · obtain ⟨l', hl', hmem⟩ := levelEntries_mem_level rest (d + 1) e h
      exact ⟨l', List.mem_cons_of_mem _ hl', hmem⟩

theorem forestRoots_ne_nil (tree : TreeMap) : forestRoots tree ≠ [] := by
  unfold forestRoots
  by_cases h : (rootsOf tree).isEmpty
  · simp [h]
  · rw [if_neg h]
    simpa [List.isEmpty_iff] using h

theorem hierLevels_length_pos (tree : TreeMap) : 0 < (hierLevels tree).length := by
  unfold hierLevels bfsLevels
  have hsk : ¬(superKids tree (forestRoots tree)).isEmpty := by
    unfold superKids
    simp [List.isEmpty_iff, forestRoots_ne_nil tree]
  rw [if_neg hsk]
  simp

theorem ky_ge (vh : ℚ) (H : Nat) (hH : 0 < H) :
    (130 : ℚ) ≤ max vh ((H : ℚ) * 130) / (H : ℚ) := by
  have hpos : (0 : ℚ) < (H : ℚ) := by exact_mod_cast hH
  rw [le_div_iff₀ hpos]
  calc (130 : ℚ) * (H : ℚ) = (H : ℚ) * 130 := by ring
    _ ≤ max vh ((H : ℚ) * 130) := le_max_right _ _

/-- C5 amended: after the super-root is stripped, every remaining node is
shifted up by exactly one level height (the clamp at 0 in the code never
engages), so a node at depth d sits at d * ky - 130 with
ky = max(viewportHeight, H * 130) / H and H the hierarchy depth; a true
root (depth 1) therefore ends at vertical coordinate 0 exactly when the
viewport height is at most H * 130, not for every non-empty map (see the
counterexample). -/
theorem c5_layout_shift (tree : TreeMap) (vw vh : ℚ) (hne : keysOf tree ≠ []) :
    ∀ n ∈ (calculateTreeLayout tree vw vh).nodes,
      n.y = (n.depth : ℚ) *
          (max vh (((hierLevels tree).length : ℚ) * LEVEL_HEIGHT) /
            ((hierLevels tree).length : ℚ)) - LEVEL_HEIGHT ∧
      (n.depth = 1 →
        (n.y = 0 ↔ vh ≤ ((hierLevels tree).length : ℚ) * LEVEL_HEIGHT)) := by
  intro n hn
  unfold calculateTreeLayout at hn
  rw [if_neg (by simpa [List.isEmpty_iff] using hne)] at hn
  simp only at hn
  obtain ⟨e, he, hmap⟩ := List.mem_map.mp hn
  obtain ⟨eid, ed⟩ := e
  have he' := (List.mem_filter.mp he).1
  have hd : 1 ≤ ed := levelEntries_depth_ge _ 1 _ he'
  have hHpos : 0 < (hierLevels tree).length := hierLevels_length_pos tree
  have hne0 : ((hierLevels tree).length : ℚ) ≠ 0 := by
    exact_mod_cast Nat.pos_iff_ne_zero.mp hHpos
  have hif : (if (hierLevels tree).length = 0 then (1 : ℚ)
      else ((hierLevels tree).length : ℚ)) = ((hierLevels tree).length : ℚ) :=
    if_neg (Nat.pos_iff_ne_zero.mp hHpos)
  have hky : (130 : ℚ) ≤ max vh (((hierLevels tree).length : ℚ) * 130) /
      ((hierLevels tree).length : ℚ) := ky_ge vh _ hHpos
  have hky' : LEVEL_HEIGHT ≤ max vh (((hierLevels tree).length : ℚ) * LEVEL_HEIGHT) /
      ((hierLevels tree).length : ℚ) := by simpa [LEVEL_HEIGHT] using hky
  have hky0 : (0 : ℚ) ≤ max vh (((hierLevels tree).length : ℚ) * LEVEL_HEIGHT) /
      ((hierLevels tree).length : ℚ) := le_trans (by norm_num [LEVEL_HEIGHT]) hky'
  have hshift : ∀ d : Nat, 1 ≤ d → max (0:ℚ) ((d : ℚ) *
      (max vh (((hierLevels tree).length : ℚ) * LEVEL_HEIGHT) /
        ((hierLevels tree).length : ℚ)) - LEVEL_HEIGHT) =
      (d : ℚ) *
        (max vh (((hierLevels tree).length : ℚ) * LEVEL_HEIGHT) /
          ((hierLevels tree).length : ℚ)) - LEVEL_HEIGHT := by
    intro d hd1
    apply max_eq_right
    have h1 : (1 : ℚ) ≤ (d : ℚ) := by exact_mod_cast hd1
    have h2 := mul_le_mul_of_nonneg_right h1 hky0
    rw [one_mul] at h2
    have h3 := le_trans hky' h2
    linarith
  subst hmap
  refine ⟨?_, ?_⟩
  · show max (0:ℚ) ((ed : ℚ) *
        (max vh (((hierLevels tree).length : ℚ) * LEVEL_HEIGHT) /
          (if (hierLevels tree).length = 0 then (1 : ℚ)
           else ((hierLevels tree).length : ℚ))) - LEVEL_HEIGHT) = _
    rw [hif]
    exact hshift ed hd
  · intro hd1
    have hd1' : ed = 1 := hd1
    subst hd1'
    show max (0:ℚ) ((((1:ℕ)) : ℚ) *
        (max vh (((hierLevels tree).length : ℚ) * LEVEL_HEIGHT) /
          (if (hierLevels tree).length = 0 then (1 : ℚ)
           else ((hierLevels tree).length : ℚ))) - LEVEL_HEIGHT) = 0 ↔ _
    rw [hif, hshift 1 (Nat.le_refl 1), Nat.cast_one, one_mul]
    constructor
    · intro h0
      have hky130 : max vh (((hierLevels tree).length : ℚ) * LEVEL_HEIGHT) /
          ((hierLevels tree).length : ℚ) = LEVEL_HEIGHT := by linarith
      rw [div_eq_iff hne0] at hky130
      have hmx : max vh (((hierLevels tree).length : ℚ) * LEVEL_HEIGHT) =
          ((hierLevels tree).length : ℚ) * LEVEL_HEIGHT := by
        rw [hky130]; ring
      exact max_eq_right_iff.mp hmx
    · intro hle
      rw [max_eq_right hle, mul_comm, mul_div_assoc, div_self hne0, mul_one, sub_self]

/-- Witness for C5: on a one-node map with viewport height 100, the root
(depth 1) sits at 0, and indeed 100 is at most one level height. -/
theorem c5_layout_shift_witness :
    ((0:ℚ) = 0 ↔ (100:ℚ) ≤ ((hierLevels exTree1).length : ℚ) * LEVEL_HEIGHT) := by
  have hmem : ({ id := n1Lit, depth := 1, y := 0 } : LNode) ∈
      (calculateTreeLayout exTree1 800 100).nodes := by
    have h1 : (calculateTreeLayout exTree1 800 100).nodes =
        [{ id := n1Lit, depth := 1,
           y := max 0 ((((1:ℕ)):ℚ) *
             ((max 100 ((((1:ℕ)):ℚ) * LEVEL_HEIGHT)) / (((1:ℕ)):ℚ)) - LEVEL_HEIGHT) }] := rfl
    have h2 : max (0:ℚ) ((((1:ℕ)):ℚ) *
        ((max 100 ((((1:ℕ)):ℚ) * LEVEL_HEIGHT)) / (((1:ℕ)):ℚ)) - LEVEL_HEIGHT) = 0 := by
      norm_num [LEVEL_HEIGHT]
    rw [h1, h2]
    exact List.mem_cons_self _ _
  exact (c5_layout_shift exTree1 800 100 (by decide)
    { id := n1Lit, depth := 1, y := 0 } hmem).2 rfl

/-- Counterexample to C5 as stated: with a one-node map and viewport height
600, the sole true root ends at vertical coordinate 470, not 0 (the shift
is exactly one level height, but the scaled level height is 600, not 130). -/
theorem c5_root_not_zero_counterexample :
    (calculateTreeLayout exTree1 800 600).nodes.map LNode.depth = [1] ∧
    (calculateTreeLayout exTree1 800 600).nodes.map LNode.y = [470] := by
  constructor
  · rfl
  · have h1 : (calculateTreeLayout exTree1 800 600).nodes.map LNode.y =
        [max 0 ((((1:ℕ)):ℚ) *
          ((max 600 ((((1:ℕ)):ℚ) * LEVEL_HEIGHT)) / (((1:ℕ)):ℚ)) - LEVEL_HEIGHT)] := rfl
    rw [h1]
    norm_num [LEVEL_HEIGHT]

theorem mem_keys_of_alookup_some {α : Type} (m : List (String × α)) (k : String)
    (v : α) (h : alookup m k = some v) : k ∈ keysOf m :=
  List.mem_map_of_mem Prod.fst (mem_of_alookup_eq_some m k v h)

theorem alookup_isSome_of_mem_keys {α : Type} (m : List (String × α)) (k : String)
    (h : k ∈ keysOf m) : (alookup m k).isSome := by
  obtain ⟨e, hm, hk⟩ := List.mem_map.mp h
  obtain ⟨k1, v⟩ := e
  simp only at hk
  subst hk
  exact alookup_isSome_of_mem m k1 v hm

/-- Root detection written from the spec (section 4.4): the normalized
parent is null or absent, or the declared parent id is not a key of the
map, and the label does not match the library-call noise list. -/
def specIsRoot (tree : TreeMap) (id : String) : Prop :=
  ∃ nd, alookup tree id = some nd ∧
    (normParent nd.p = none ∨
      ∃ q, normParent nd.p = some q ∧ alookup tree q = none) ∧
    isLibraryFunc nd = false

theorem rootsOf_subset (tree : TreeMap) : rootsOf tree ⊆ keysOf tree :=
  fun x hx => (List.mem_filter.mp hx).1

theorem childrenIds_subset (tree : TreeMap) (roots : List String) (pid : String) :
    childrenIds tree roots pid ⊆ keysOf tree :=
  fun x hx => (List.mem_filter.mp hx).1

theorem mem_flatMapL {α β : Type} (f : α → List β) :
    ∀ (l : List α) (x : β), x ∈ flatMapL f l → ∃ a ∈ l, x ∈ f a
  | [], x, hx => by simp [flatMapL] at hx
  | a :: rest, x, hx => by
    simp only [flatMapL] at hx
    rcases List.mem_append.mp hx with h | h
    · exact ⟨a, List.mem_cons_self _ _, h⟩
    · obtain ⟨a', ha', hx'⟩ := mem_flatMapL f rest x h
      exact ⟨a', List.mem_cons_of_mem _ ha', hx'⟩

theorem rootsOf_iff (tree : TreeMap) (id : String) :
    id ∈ rootsOf tree ↔ specIsRoot tree id := by
  constructor
  · intro h
    obtain ⟨hkeys, hpred⟩ := List.mem_filter.mp h
    cases hl : alookup tree id with
    | none => rw [hl] at hpred; cases hpred
    | some nd =>
      rw [hl] at hpred
      simp only [isRootEntry, Bool.and_eq_true, Bool.not_eq_true'] at hpred
      obtain ⟨hp, hlib⟩ := hpred
      refine ⟨nd, hl, ?_, hlib⟩
      cases hnp : nd.p with
      | none => exact Or.inl (by simp [normParent])
      | some q =>
        rw [hnp] at hp
        simp only [Bool.or_eq_true, beq_iff_eq, Bool.not_eq_true'] at hp
        rcases hp with hq | hq
        · exact Or.inl (by simp [normParent, hq])
        · by_cases hqn : q = nullLit
          · exact Or.inl (by simp [normParent, hqn])
          · refine Or.inr ⟨q, by simp [normParent, hqn], ?_⟩
            apply alookup_eq_none_of_forall
            intro e he hek
            have hmem : q ∈ keysOf tree := by
              rw [← hek]
              exact List.mem_map_of_mem Prod.fst he
            have hnot : q ∉ keysOf tree := by simpa using hq
            exact absurd hmem hnot
  · intro h
    obtain ⟨nd, hl, hdisj, hlib⟩ := h
    apply List.mem_filter.mpr
    refine ⟨mem_keys_of_alookup_some tree id nd hl, ?_⟩
    rw [hl]
    simp only [isRootEntry, Bool.and_eq_true, Bool.not_eq_true']
    refine ⟨?_, hlib⟩
    cases hnp : nd.p with
    | none => rfl
    | some q =>
      simp only [Bool.or_eq_true, beq_iff_eq, Bool.not_eq_true']
      rw [hnp] at hdisj
      rcases hdisj with hnone | ⟨q', hsome, hqnone⟩
      · left
        by_cases hqn : q = nullLit
        · exact hqn
        · simp [normParent, hqn] at hnone
      · right
        have hq' : q' = q ∧ q ≠ nullLit := by
          by_cases hqn : q = nullLit
          · simp [normParent, hqn] at hsome
          · simp only [normParent, if_neg hqn, Option.some.injEq] at hsome
            exact ⟨hsome.symm, hqn⟩
        have : q ∉ keysOf tree := by
          intro hmem
          have hs := alookup_isSome_of_mem_keys tree q hmem
          rw [← hq'.1, hqnone] at hs
          cases hs
        simpa using this

theorem z_not_in_roots (tree : TreeMap) (z : String) (nd : TreeNode)
    (hz1 : alookup tree z = some nd) (hz2 : isLibraryFunc nd = true) :
    z ∉ rootsOf tree := by
  intro hmem
  have hpred := (List.mem_filter.mp hmem).2
  rw [hz1] at hpred
  simp [isRootEntry, hz2] at hpred

theorem z_not_in_childrenIds (tree : TreeMap) (roots : List String)
    (pid z q : String) (nd : TreeNode)
    (hz1 : alookup tree z = some nd) (hz3 : normParent nd.p = some q)
    (hq : alookup tree q = none) (hpid : pid ∈ keysOf tree) :
    z ∉ childrenIds tree roots pid := by
  intro hmem
  have hpred := (List.mem_filter.mp hmem).2
  rw [hz1] at hpred
  dsimp only at hpred
  rw [hz3] at hpred
  dsimp only at hpred
  simp only [Bool.and_eq_true, beq_iff_eq, Bool.not_eq_true'] at hpred
  have hqpid : q = pid := hpred.2.2
  subst hqpid
  have := alookup_isSome_of_mem_keys tree q hpid
  rw [hq] at this
  cases this

theorem z_not_in_superKids (tree : TreeMap) (z q : String) (nd : TreeNode)
    (hz1 : alookup tree z = some nd) (hz2 : isLibraryFunc nd = true)
    (hz3 : normParent nd.p = some q) (hz5 : q ≠ SUPER_ROOT_ID) :
    z ∉ superKids tree (rootsOf tree) := by
  intro hmem
  unfold superKids at hmem
  rcases List.mem_append.mp hmem with h | h
  · by_cases hsk : (keysOf tree).contains SUPER_ROOT_ID
    · rw [if_pos hsk] at h
      simp at h
    · rw [if_neg hsk] at h
      have hpred := (List.mem_filter.mp h).2
      rw [hz1] at hpred
      dsimp only at hpred
      rw [hz3] at hpred
      dsimp only at hpred
      simp only [Bool.and_eq_true, beq_iff_eq] at hpred
      exact hz5 hpred.2
  · exact z_not_in_roots tree z nd hz1 hz2 h

theorem bfs_no_z (tree : TreeMap) (roots : List String) (z q : String)
    (nd : TreeNode) (hz1 : alookup tree z = some nd)
    (hz3 : normParent nd.p = some q) (hq : alookup tree q = none) :
    ∀ (fuel : Nat) (frontier : List String), frontier ⊆ keysOf tree →
      z ∉ frontier → ∀ lvl ∈ bfsLevels tree roots fuel frontier,
        z ∉ lvl ∧ lvl ⊆ keysOf tree
  | 0, frontier, _, _, lvl, hlvl => by simp [bfsLevels] at hlvl
  | fuel + 1, frontier, hsub, hz, lvl, hlvl => by
    unfold bfsLevels at hlvl
    by_cases hemp : frontier.isEmpty
    · rw [if_pos hemp] at hlvl
      simp at hlvl
    · rw [if_neg hemp] at hlvl
      rcases List.mem_cons.mp hlvl with rfl | h
      · exact ⟨hz, hsub⟩
      · refine bfs_no_z tree roots z q nd hz1 hz3 hq fuel
          (flatMapL (childrenIds tree roots) frontier) ?_ ?_ lvl h
        · intro x hx
          obtain ⟨pid, _, hxc⟩ := mem_flatMapL _ _ x hx
          exact childrenIds_subset tree roots pid hxc
        · intro hmem
          obtain ⟨pid, hpid, hzc⟩ := mem_flatMapL _ _ z hmem
          exact z_not_in_childrenIds tree roots pid z q nd hz1 hz3 hq
            (hsub hpid) hzc

theorem mem_levelEdges (tree : TreeMap) (roots : List String) :
    ∀ (ls : List (List String)) (l : LLink), l ∈ levelEdges tree roots ls →
      ∃ lvl ∈ ls, l.src ∈ lvl ∧ l.tgt ∈ childrenIds tree roots l.src
  | [], l, hl => by simp [levelEdges] at hl
  | lvl :: rest, l, hl => by
    simp only [levelEdges] at hl
    rcases List.mem_append.mp hl with h | h
    · obtain ⟨pid, hpid, hx⟩ := mem_flatMapL _ _ l h
      obtain ⟨c, hc, hmap⟩ := List.mem_map.mp hx
      subst hmap
      exact ⟨lvl, List.mem_cons_self _ _, hpid, hc⟩
    · obtain ⟨lvl', h1, h2, h3⟩ := mem_levelEdges tree roots rest l h
      exact ⟨lvl', List.mem_cons_of_mem _ h1, h2, h3⟩

/-- C6 amended: root detection matches the spec characterization (parent
null/absent or not a key, and the label not matching the library-call
noise list); and a noise node with a dangling declared parent is absent
from the returned nodes and links entirely, provided at least one root was
detected (the zero-roots fallback promotes the first key, even a noise
node, see the counterexample) and the dangling parent id is not the
synthetic super-root sentinel (such a parent would attach the node under
the super-root). -/
theorem c6_forest_roots (tree : TreeMap) (vw vh : ℚ) :
    (∀ id, id ∈ rootsOf tree ↔ specIsRoot tree id) ∧
    (∀ z nd q, alookup tree z = some nd → isLibraryFunc nd = true →
      normParent nd.p = some q → alookup tree q = none → q ≠ SUPER_ROOT_ID →
      rootsOf tree ≠ [] →
      (∀ n ∈ (calculateTreeLayout tree vw vh).nodes, n.id ≠ z) ∧
      (∀ l ∈ (calculateTreeLayout tree vw vh).links, l.src ≠ z ∧ l.tgt ≠ z)) := by
  refine ⟨rootsOf_iff tree, ?_⟩
  intro z nd q hz1 hz2 hz3 hz4 hz5 hroots
  have hfr : forestRoots tree = rootsOf tree := by
    unfold forestRoots
    rw [if_neg (by simpa [List.isEmpty_iff] using hroots)]
  have hkeysne : keysOf tree ≠ [] := by
    intro hk
    apply hroots
    simp [rootsOf, hk]
  have hsksub : superKids tree (forestRoots tree) ⊆ keysOf tree := by
    intro x hx
    unfold superKids at hx
    rcases List.mem_append.mp hx with h | h
    · by_cases hsk : (keysOf tree).contains SUPER_ROOT_ID
      · rw [if_pos hsk] at h
        simp at h
      · rw [if_neg hsk] at h
        exact (List.mem_filter.mp h).1
    · rw [hfr] at h
      exact rootsOf_subset tree h
  have hskz : z ∉ superKids tree (forestRoots tree) := by
    rw [hfr]
    exact z_not_in_superKids tree z q nd hz1 hz2 hz3 hz5
  have hlv := bfs_no_z tree (forestRoots tree) z q nd hz1 hz3 hz4
    ((keysOf tree).length + 1) (superKids tree (forestRoots tree)) hsksub hskz
  have hlvh : ∀ lvl ∈ hierLevels tree, z ∉ lvl ∧ lvl ⊆ keysOf tree := hlv
  constructor
  · intro n hn
    unfold calculateTreeLayout at hn
    rw [if_neg (by simpa [List.isEmpty_iff] using hkeysne)] at hn
    simp only at hn
    obtain ⟨e, he, hmap⟩ := List.mem_map.mp hn
    have he1 := (List.mem_filter.mp he).1
    obtain ⟨lvl, hlvl, hmem⟩ := levelEntries_mem_level _ 1 e he1
    have hzl := (hlvh lvl hlvl).1
    subst hmap
    intro hcon
    exact hzl (hcon ▸ hmem)
  · intro l hl
    unfold calculateTreeLayout at hl
    rw [if_neg (by simpa [List.isEmpty_iff] using hkeysne)] at hl
    simp only at hl
    have hmem := (List.mem_filter.mp hl).1
    have hfilter := (List.mem_filter.mp hl).2
    rcases List.mem_append.mp hmem with h | h
    · obtain ⟨c, hc, hmap⟩ := List.mem_map.mp h
      rw [← hmap] at hfilter
      simp [SUPER_ROOT_ID] at hfilter
    · obtain ⟨lvl, hlvl, hsrc, htgt⟩ := mem_levelEdges tree (forestRoots tree) _ l h
      have hlv' := hlvh lvl hlvl
      constructor
      · exact fun hcon => hlv'.1 (hcon ▸ hsrc)
      · intro hcon
        exact z_not_in_childrenIds tree (forestRoots tree) l.src z q nd hz1 hz3 hz4
          (hlv'.2 hsrc) (hcon ▸ htgt)

/-- A map with one real root and one noise node with a dangling parent. -/
def exTreeNoise : TreeMap :=
  [(n1Lit, { l := mainLit, p := none, level := 0, children := [], type := none }),
   (n2Lit, { l := printfCallLit, p := some missingLit, level := 1,
             children := [], type := none })]

/-- Witness for C6: on the spec example map the rendered output consists of
n1 alone, so its id differs from the dropped noise node n2. -/
theorem c6_forest_roots_witness : n1Lit ≠ n2Lit := by
  have hpart := (c6_forest_roots exTreeNoise 100 100).2 n2Lit
    { l := printfCallLit, p := some missingLit, level := 1, children := [], type := none }
    missingLit rfl rfl rfl rfl (by decide) (by decide)
  apply hpart.1 { id := n1Lit, depth := 1, y := 0 }
  have h1 : (calculateTreeLayout exTreeNoise 100 100).nodes =
      [{ id := n1Lit, depth := 1,
         y := max 0 ((((1:ℕ)):ℚ) *
           ((max 100 ((((1:ℕ)):ℚ) * LEVEL_HEIGHT)) / (((1:ℕ)):ℚ)) - LEVEL_HEIGHT) }] := rfl
  have h2 : max (0:ℚ) ((((1:ℕ)):ℚ) *
      ((max 100 ((((1:ℕ)):ℚ) * LEVEL_HEIGHT)) / (((1:ℕ)):ℚ)) - LEVEL_HEIGHT) = 0 := by
    norm_num [LEVEL_HEIGHT]
  rw [h1, h2]
  exact List.mem_cons_self _ _

/-- A noise node with a dangling parent. -/
def noiseNode : TreeNode :=
  { l := printfCallLit, p := some missingLit, level := 0, children := [], type := none }

/-- A map whose only node is a noise node with a dangling parent. -/
def exTreeAllNoise : TreeMap := [(n1Lit, noiseNode)]

/-- Counterexample to C6 as stated: the sole node is a noise node with a
dangling parent, so by the claim it must be absent from the output; root
detection yields zero candidates, the fallback promotes the first key, and
the noise node is rendered. -/
theorem c6_noise_fallback_counterexample :
    rootsOf exTreeAllNoise = [] ∧
    isLibraryFunc noiseNode = true ∧
    alookup exTreeAllNoise missingLit = none ∧
    (calculateTreeLayout exTreeAllNoise 100 100).nodes.map LNode.id = [n1Lit] :=
  ⟨rfl, rfl, rfl, rfl⟩

/-! Idempotence of the pass on already-processed steps. -/

theorem alookup_of_mem_nodup {α : Type} (m : List (String × α)) (k : String) (v : α)
    (hnd : (keysOf m).Nodup) (hmem : (k, v) ∈ m) : alookup m k = some v := by
  induction m with
  | nil => simp at hmem
  | cons e rest ih =>
    obtain ⟨k0, w⟩ := e
    have hnd0 : k0 ∉ keysOf rest ∧ (keysOf rest).Nodup := by
      constructor
      · have := (List.nodup_cons.mp (show (k0 :: keysOf rest).Nodup by
          simpa [keysOf] using hnd)).1
        exact this
      · exact (List.nodup_cons.mp (show (k0 :: keysOf rest).Nodup by
          simpa [keysOf] using hnd)).2
    rcases List.mem_cons.mp hmem with heq | hmem'
    · have h1 : k0 = k := (congrArg Prod.fst heq).symm
      have h2 : w = v := (congrArg Prod.snd heq).symm
      simp [alookup, h1, h2]
    · have hkrest : k ∈ keysOf rest := List.mem_map_of_mem Prod.fst hmem'
      have hk0 : k0 ≠ k := fun he => hnd0.1 (he ▸ hkrest)
      simp only [alookup, if_neg hk0]
      exact ih hnd0.2 hmem'

theorem alookup_append_isSome_left {α : Type} (m1 m2 : List (String × α)) (k : String)
    (h : (alookup m1 k).isSome) : (alookup (m1 ++ m2) k).isSome := by
  rw [alookup_append]
  obtain ⟨v, hv⟩ := Option.isSome_iff_exists.mp h
  rw [hv]
  rfl

theorem varsAfterInherit_isSome (st : PassSt) (ss : StepState) (k : String)
    (h : (alookup (varsAfterBackfill st ss) k).isSome) :
    (alookup (varsAfterInherit st ss) k).isSome := by
  obtain ⟨v, hv⟩ := Option.isSome_iff_exists.mp h
  rw [varsAfterInherit_keeps st ss k v hv]
  rfl

/-- All values in the persistent table are sanitizer-fixed arrays. -/
def paGood (pa : VarMap) : Prop :=
  ∀ e ∈ pa, ∃ a, e.2 = Value.vArr a ∧ cleanArray a = a

theorem cleanVars_entries_good (m : VarMap) :
    ∀ e ∈ cleanVars m, ∀ a, e.2 = Value.vArr a → cleanArray a = a := by
  intro e he a ha
  obtain ⟨e0, _, _, hval⟩ := mem_cleanVars m e he
  cases h0 : e0.2 with
  | vArr a0 =>
    rw [h0] at hval
    rw [hval] at ha
    injection ha with ha'
    rw [← ha']
    exact cleanArray_idem a0
  | vStr s => rw [h0] at hval; rw [hval] at ha; cases ha
  | vNum n => rw [h0] at hval; rw [hval] at ha; cases ha
  | vBool b => rw [h0] at hval; rw [hval] at ha; cases ha
  | vNull => rw [h0] at hval; rw [hval] at ha; cases ha

theorem record_paGood (m pa : VarMap) (hpa : paGood pa)
    (hm : ∀ e ∈ m, ∀ a, e.2 = Value.vArr a → cleanArray a = a) :
    paGood (recordArrays m pa) := by
  intro e he
  rcases record_mem m pa e he with h | ⟨hmem, harr⟩
  · exact hpa e h
  · cases hv : e.2 with
    | vArr a => exact ⟨a, rfl, hm e hmem a hv⟩
    | vStr s => simp [isArr, hv] at harr
    | vNum n => simp [isArr, hv] at harr
    | vBool b => simp [isArr, hv] at harr
    | vNull => simp [isArr, hv] at harr

theorem paAfter_good (st : PassSt) (ss : StepState) (h : paGood st.pa) :
    paGood (paAfter st ss) :=
  record_paGood _ _ h (cleanVars_entries_good _)

theorem varsAI_ext (st : PassSt) (ss : StepState) :
    ∃ ext, varsAfterInherit st ss = varsAfterBackfill st ss ++ ext ∧
      ∀ e ∈ ext, isArr e.2 = false ∧ alookup (varsAfterBackfill st ss) e.1 = none := by
  unfold varsAfterInherit
  cases hp : st.prev with
  | none => exact ⟨[], by simp, by simp⟩
  | some pstep =>
    dsimp only
    cases hps : pstep.s with
    | none => exact ⟨[], by simp, by simp⟩
    | some pss =>
      dsimp only
      by_cases hq : looseEqH pss.h ss.h
      · rw [if_pos hq]
        exact inherit_ext _ _
      · rw [if_neg hq]
        exact ⟨[], by simp, by simp⟩

theorem varsAI_entries_good (st : PassSt) (ss : StepState) (h : paGood st.pa) :
    ∀ e ∈ varsAfterInherit st ss, ∀ a, e.2 = Value.vArr a → cleanArray a = a := by
  obtain ⟨exti, hexti, hpropi⟩ := varsAI_ext st ss
  obtain ⟨extb, hextb, hpropb⟩ := backfill_ext (paAfter st ss) (cleanedVars ss)
  intro e he a ha
  rw [hexti] at he
  rcases List.mem_append.mp he with he2 | hei
  · have he2' : e ∈ cleanedVars ss ++ extb := by
      rw [← hextb]
      exact he2
    rcases List.mem_append.mp he2' with hc | hbm
    · exact cleanVars_entries_good _ e hc a ha
    · obtain ⟨hpamem, _⟩ := hpropb e hbm
      obtain ⟨a', hval, hfix⟩ := paAfter_good st ss h e hpamem
      rw [hval] at ha
      injection ha with ha'
      rw [← ha']
      exact hfix
  · have := (hpropi e hei).1
    rw [ha] at this
    simp [isArr] at this

theorem varsAI_clean_fix (st : PassSt) (ss : StepState) (h : paGood st.pa) :
    cleanVars (varsAfterInherit st ss) = varsAfterInherit st ss :=
  cleanVars_eq_self _ (varsAI_entries_good st ss h)

theorem record_run2_pointwise (st1 st2 : PassSt) (ss : StepState)
    (hpa : ∀ k, alookup st2.pa k = alookup st1.pa k)
    (hgood1 : paGood st1.pa) (hnd1 : (keysOf st1.pa).Nodup) :
    ∀ k, alookup (recordArrays (varsAfterInherit st1 ss) st2.pa) k =
      alookup (paAfter st1 ss) k := by
  intro k
  obtain ⟨exti, hexti, hpropi⟩ := varsAI_ext st1 ss
  obtain ⟨extb, hextb, hpropb⟩ := backfill_ext (paAfter st1 ss) (cleanedVars ss)
  have hndpa1 : (keysOf (paAfter st1 ss)).Nodup := record_nodup _ _ hnd1
  have hv3 : varsAfterInherit st1 ss = (cleanedVars ss ++ extb) ++ exti := by
    rw [hexti]
    congr 1
  rw [record_lookup, hv3, lastArrVal_append, lastArrVal_append]
  have hi_none : lastArrVal exti k = none :=
    lastArrVal_none_of_no_arr _ _ (fun e he _ => (hpropi e he).1)
  rw [hi_none]
  cases hb : lastArrVal extb k with
  | some v =>
    obtain ⟨hmemb, _⟩ := lastArrVal_mem extb k v hb
    obtain ⟨hpa1mem, _⟩ := hpropb _ hmemb
    have hres : alookup (paAfter st1 ss) k = some v :=
      alookup_of_mem_nodup _ _ _ hndpa1 hpa1mem
    rw [hres]
  | none =>
    cases hv1 : lastArrVal (cleanedVars ss) k with
    | some w =>
      have hres : alookup (paAfter st1 ss) k = some w := by
        rw [show alookup (paAfter st1 ss) k =
            (match lastArrVal (cleanedVars ss) k with
              | some v => some v
              | none => alookup st1.pa k) from record_lookup _ _ _, hv1]
      rw [hres]
    | none =>
      have hres : alookup (paAfter st1 ss) k = alookup st1.pa k := by
        rw [show alookup (paAfter st1 ss) k =
            (match lastArrVal (cleanedVars ss) k with
              | some v => some v
              | none => alookup st1.pa k) from record_lookup _ _ _, hv1]
      rw [hres]
      exact hpa k

theorem backfill_run2_noop (st1 st2 : PassSt) (ss : StepState)
    (hpa : ∀ k, alookup st2.pa k = alookup st1.pa k) :
    backfillArrays (recordArrays (varsAfterInherit st1 ss) st2.pa)
      (varsAfterInherit st1 ss) = varsAfterInherit st1 ss := by
  apply backfill_noop
  intro e he
  rcases record_mem _ _ e he with h2 | ⟨h3, _⟩
  · have h4 : (alookup st2.pa e.1).isSome := alookup_isSome_of_mem _ e.1 e.2 h2
    rw [hpa e.1] at h4
    have h5 : (alookup (paAfter st1 ss) e.1).isSome := record_isSome_mono _ _ _ h4
    obtain ⟨v, hv⟩ := Option.isSome_iff_exists.mp h5
    have h6 : (e.1, v) ∈ paAfter st1 ss := mem_of_alookup_eq_some _ _ _ hv
    have h7 : (alookup (varsAfterBackfill st1 ss) e.1).isSome :=
      backfill_covers (paAfter st1 ss) (cleanedVars ss) (e.1, v) h6
    exact varsAfterInherit_isSome st1 ss e.1 h7
  · exact alookup_isSome_of_mem _ e.1 e.2 h3

theorem varsAI_eq_of_prev_none (st : PassSt) (ss : StepState) (h : st.prev = none) :
    varsAfterInherit st ss = varsAfterBackfill st ss := by
  unfold varsAfterInherit
  rw [h]

theorem varsAI_eq_of_prev_s_none (st : PassSt) (ss : StepState) (p : SimulationStep)
    (h : st.prev = some p) (h2 : p.s = none) :
    varsAfterInherit st ss = varsAfterBackfill st ss := by
  unfold varsAfterInherit
  rw [h]
  dsimp only
  rw [h2]

theorem varsAI_eq_gate_true (st : PassSt) (ss : StepState) (p : SimulationStep)
    (pss : StepState) (h : st.prev = some p) (h2 : p.s = some pss)
    (h3 : looseEqH pss.h ss.h) :
    varsAfterInherit st ss
      = inheritScalars (pss.vars.getD []) (varsAfterBackfill st ss) := by
  unfold varsAfterInherit
  rw [h]
  dsimp only
  rw [h2]
  dsimp only
  rw [if_pos h3]

theorem varsAI_eq_gate_false (st : PassSt) (ss : StepState) (p : SimulationStep)
    (pss : StepState) (h : st.prev = some p) (h2 : p.s = some pss)
    (h3 : ¬ looseEqH pss.h ss.h) :
    varsAfterInherit st ss = varsAfterBackfill st ss := by
  unfold varsAfterInherit
  rw [h]
  dsimp only
  rw [h2]
  dsimp only
  rw [if_neg h3]

/-- Re-running the vars pipeline on a step that already carries the pass's
output mapping reproduces that mapping, given an equivalent pass state. -/
theorem run2_vars_noop (s1 s2 : PassSt) (ss : StepState)
    (hprev : s2.prev = s1.prev)
    (hpa : ∀ k, alookup s2.pa k = alookup s1.pa k)
    (hgood : paGood s1.pa) :
    varsAfterInherit s2 { ss with vars := some (varsAfterInherit s1 ss) }
      = varsAfterInherit s1 ss := by
  have hcv : cleanedVars { ss with vars := some (varsAfterInherit s1 ss) }
      = varsAfterInherit s1 ss := varsAI_clean_fix s1 ss hgood
  have hvb : varsAfterBackfill s2 { ss with vars := some (varsAfterInherit s1 ss) }
      = varsAfterInherit s1 ss := by
    show backfillArrays (recordArrays (cleanedVars _) s2.pa) (cleanedVars _)
      = varsAfterInherit s1 ss
    rw [hcv]
    exact backfill_run2_noop s1 s2 ss hpa
  cases hp : s1.prev with
  | none =>
    rw [varsAI_eq_of_prev_none s2 _ (hprev.trans hp), hvb]
  | some pstep =>
    cases hps : pstep.s with
    | none =>
      rw [varsAI_eq_of_prev_s_none s2 _ pstep (hprev.trans hp) hps, hvb]
    | some pss =>
      by_cases hq : looseEqH pss.h ss.h
      · have hq2 : looseEqH pss.h
            ({ ss with vars := some (varsAfterInherit s1 ss) } : StepState).h := hq
        rw [varsAI_eq_gate_true s2 _ pstep pss (hprev.trans hp) hps hq2, hvb]
        have hrun1 : varsAfterInherit s1 ss
            = inheritScalars (pss.vars.getD []) (varsAfterBackfill s1 ss) :=
          varsAI_eq_gate_true s1 ss pstep pss hp hps hq
        apply inherit_noop
        intro e he harr
        rw [hrun1]
        exact inherit_covers _ _ e he harr
      · have hq2 : ¬ looseEqH pss.h
            ({ ss with vars := some (varsAfterInherit s1 ss) } : StepState).h := hq
        rw [varsAI_eq_gate_false s2 _ pstep pss (hprev.trans hp) hps hq2, hvb]

/-- Relation between the pass state of a first run and the state reached by
a second run over the first run's output: same previous step, pointwise
equal persistence table, first-run table holding only sanitizer-fixed
arrays, and both tables duplicate-free. -/
def StInv (s1 s2 : PassSt) : Prop :=
  s2.prev = s1.prev ∧ (∀ k, alookup s2.pa k = alookup s1.pa k) ∧
    paGood s1.pa ∧ (keysOf s1.pa).Nodup ∧ (keysOf s2.pa).Nodup

theorem processStep_fst (st : PassSt) (step : SimulationStep) (ss : StepState)
    (h : step.s = some ss) :
    (processStep st step).1
      = { step with s := some { ss with vars := some (varsAfterInherit st ss) } } := by
  simp [processStep, h]

theorem processStep_snd (st : PassSt) (step : SimulationStep) (ss : StepState)
    (h : step.s = some ss) :
    (processStep st step).2
      = { prev := some (processStep st step).1, pa := paAfter st ss,
          tree := normalizeTreeStep st.tree (st.prev.bind SimulationStep.n) step.n } := by
  simp [processStep, h]

theorem stepIdem (s1 s2 : PassSt) (raw : SimulationStep) (hinv : StInv s1 s2) :
    (processStep s2 (processStep s1 raw).1).1 = (processStep s1 raw).1 ∧
    StInv (processStep s1 raw).2 (processStep s2 (processStep s1 raw).1).2 := by
  obtain ⟨hprev, hpa, hgood, hnd1, hnd2⟩ := hinv
  cases hs : raw.s with
  | none =>
    simp only [processStep, hs]
    exact ⟨trivial, rfl, hpa, hgood, hnd1, hnd2⟩
  | some ss =>
    have hfst1 := processStep_fst s1 raw ss hs
    have hsnd1 := processStep_snd s1 raw ss hs
    have hos : (processStep s1 raw).1.s
        = some { ss with vars := some (varsAfterInherit s1 ss) } := by
      rw [hfst1]
    have hfst2 := processStep_fst s2 (processStep s1 raw).1 _ hos
    have hsnd2 := processStep_snd s2 (processStep s1 raw).1 _ hos
    have hvars : varsAfterInherit s2 { ss with vars := some (varsAfterInherit s1 ss) }
        = varsAfterInherit s1 ss := run2_vars_noop s1 s2 ss hprev hpa hgood
    have hfix : (processStep s2 (processStep s1 raw).1).1 = (processStep s1 raw).1 := by
      rw [hfst2, hvars, hfst1]
    refine ⟨hfix, ?_, ?_, ?_, ?_, ?_⟩
    · rw [hsnd2, hsnd1]
      dsimp only
      rw [hfix, hfst1]
    · intro k
      rw [hsnd2, hsnd1]
      dsimp only
      have h1 : paAfter s2 { ss with vars := some (varsAfterInherit s1 ss) }
          = recordArrays (varsAfterInherit s1 ss) s2.pa := by
        show recordArrays (cleanedVars _) s2.pa = _
        rw [show cleanedVars { ss with vars := some (varsAfterInherit s1 ss) }
            = varsAfterInherit s1 ss from varsAI_clean_fix s1 ss hgood]
      rw [h1]
      exact record_run2_pointwise s1 s2 ss hpa hgood hnd1 k
    · rw [hsnd1]
      dsimp only
      exact paAfter_good s1 ss hgood
    · rw [hsnd1]
      dsimp only
      exact record_nodup _ _ hnd1
    · rw [hsnd2]
      dsimp only
      exact record_nodup _ _ hnd2

theorem runIdem : ∀ (raws : List SimulationStep) (s1 s2 : PassSt), StInv s1 s2 →
    (runPass (runPass raws s1).1 s2).1 = (runPass raws s1).1 ∧
    StInv (runPass raws s1).2 (runPass (runPass raws s1).1 s2).2
  | [], _, _, h => ⟨rfl, h⟩
  | x :: xs, s1, s2, h => by
    obtain ⟨hstep, hinv2⟩ := stepIdem s1 s2 x h
    have ih := runIdem xs (processStep s1 x).2 (processStep s2 (processStep s1 x).1).2 hinv2
    constructor
    · simp only [runPass]
      rw [hstep, ih.1]
    · simp only [runPass]
      exact ih.2

/-- C9: re-running normalizeData over an already-reconciled prefix followed
by any appended suffix (and any replacement tree and metadata) leaves every
step of the prefix exactly as the first run produced it: the Carry-Forward
pass is idempotent on already-processed steps. -/
theorem c9_carry_forward_idempotent (data : SimulationData)
    (suffix : List SimulationStep) (c2 : Complexity)
    (ptr2 : Option (List String)) (ic2 : Option Bool) (t2 : TreeMap) :
    (normalizeData
      { complexity := c2, pointers := ptr2, isComplete := ic2,
        steps := (normalizeData data).steps ++ suffix, tree := t2 }).steps.take
      (normalizeData data).steps.length = (normalizeData data).steps := by
  have hinv : StInv (initSt data.tree) (initSt t2) :=
    ⟨rfl, fun _ => rfl, fun e he => (List.not_mem_nil e he).elim,
      List.nodup_nil, List.nodup_nil⟩
  have h := runIdem data.steps (initSt data.tree) (initSt t2) hinv
  show (runPass ((runPass data.steps (initSt data.tree)).1 ++ suffix) (initSt t2)).1.take
      (runPass data.steps (initSt data.tree)).1.length
    = (runPass data.steps (initSt data.tree)).1
  rw [runPass_append]
  show ((runPass (runPass data.steps (initSt data.tree)).1 (initSt t2)).1 ++
      (runPass suffix
        (runPass (runPass data.steps (initSt data.tree)).1 (initSt t2)).2).1).take
      (runPass data.steps (initSt data.tree)).1.length
    = (runPass data.steps (initSt data.tree)).1
  rw [h.1]
  exact List.take_left _ _
